import Mathlib

set_option maxHeartbeats 1000000

/-!
Shallow embedding of `src/recipe_resolver.rs` (the `RecipeResolver` semantic-resolution
pass of a task-definition language).  Tables are embedded as lists keyed by recipe name,
mutable state as an explicit `ResolverState`, and fallible code as `Except`.
External collaborators (the `Table` container, the `Expression` query interface and the
builtin-function registry `Function::resolve`) are modelled at their boundary as the
specification describes them.
-/

namespace RecipeResolver

/-- A source token: lexeme plus span data (byte offset, line, column, width); §3 Name/Token.
Produced by the excluded parser, immutable. -/
structure Token where
  lexeme : String
  offset : Nat
  line : Nat
  column : Nat
  width : Nat
  deriving Repr, DecidableEq

/-- A token with the given lexeme and zero span, for concrete instances. -/
def tok (s : String) : Token := ⟨s, 0, 0, 0, 0⟩

/-- External expression type (§3): exposes the list of function-call references
(function name token, argument count) and the list of variable-reference tokens,
mirroring `expression.functions()` and `expression.variables()`. -/
structure Expression where
  functions : List (Token × Nat)
  vars : List Token
  deriving Repr, DecidableEq

/-- A parameter: a name token and an optional default expression (§3). -/
structure Parameter where
  name : Token
  default : Option Expression
  deriving Repr, DecidableEq

/-- A body-line fragment: literal text or an interpolation carrying an expression (§3). -/
inductive Fragment where
  | text (s : String)
  | interpolation (expression : Expression)
  deriving Repr, DecidableEq

/-- A recipe body line: an ordered fragment list (§3). -/
structure Line where
  fragments : List Fragment
  deriving Repr, DecidableEq

/-- `Recipe<'a, Name<'a>>`: an unresolved recipe, whose dependencies are still bare
name tokens.  `recipe.name()` is embedded as the `name` field (its lexeme). -/
structure UnresolvedRecipe where
  name : String
  parameters : List Parameter
  dependencies : List Token
  body : List Line
  deriving Repr, DecidableEq

/-- `Recipe<'a>` after resolution: same shape, but each dependency is a handle to an
already-resolved recipe (the `Dependency` newtype wrapper around `Rc<Recipe>` is
flattened into the recipe itself). -/
inductive ResolvedRecipe where
  | mk (name : String) (parameters : List Parameter) (dependencies : List ResolvedRecipe)
      (body : List Line)
  deriving Repr

/-- `recipe.name()` on a resolved recipe. -/
def ResolvedRecipe.name : ResolvedRecipe → String
  | .mk n _ _ _ => n

/-- `recipe.parameters` on a resolved recipe. -/
def ResolvedRecipe.parameters : ResolvedRecipe → List Parameter
  | .mk _ p _ _ => p

/-- `recipe.dependencies` on a resolved recipe. -/
def ResolvedRecipe.dependencies : ResolvedRecipe → List ResolvedRecipe
  | .mk _ _ d _ => d

/-- `recipe.body` on a resolved recipe. -/
def ResolvedRecipe.body : ResolvedRecipe → List Line
  | .mk _ _ _ b => b

/-- `CompilationErrorKind` (§4.4): the structured payloads raised by this pass, plus the
externally raised `UnknownFunction`. -/
inductive CompilationErrorKind where
  | CircularRecipeDependency (recipe : String) (circle : List String)
  | DependencyHasParameters (recipe : String) (dependency : String)
  | UnknownDependency (recipe : String) (unknown : String)
  | UndefinedVariable (variableName : String)
  | UnknownFunction (function : String)
  deriving Repr, DecidableEq

/-- `CompilationError`: a kind anchored at the offending token's span (§4.4). -/
structure CompilationError where
  token : Token
  kind : CompilationErrorKind
  deriving Repr, DecidableEq

/-- `token.error(kind)`: attach the offending token to an error kind. -/
def Token.error (t : Token) (k : CompilationErrorKind) : CompilationError :=
  ⟨t, k⟩

/-- Modelled from the spec (§4.1 Table): `get(name)` on the resolved table — lookup of
the entry keyed `name`. -/
def getResolved (name : String) : List ResolvedRecipe → Option ResolvedRecipe
  | [] => none
  | r :: rs => if r.name = name then some r else getResolved name rs

/-- Modelled from the spec (§4.1 Table): `remove(name)` on the unresolved table —
ownership-transferring removal, returning the removed entry and the remaining table. -/
def removeByName (name : String) :
    List UnresolvedRecipe → Option (UnresolvedRecipe × List UnresolvedRecipe)
  | [] => none
  | r :: rs =>
    if r.name = name then some (r, rs)
    else
      match removeByName name rs with
      | none => none
      | some (u, rest) => some (u, r :: rest)

/-- The resolver's mutable state: the two live tables of `RecipeResolver`
(`unresolved_recipes` and `resolved_recipes`; the read-only `assignments` table is
passed separately). -/
structure ResolverState where
  unresolved : List UnresolvedRecipe
  resolved : List ResolvedRecipe
  deriving Repr

/-- The names keyed in the unresolved table. -/
def ResolverState.uNames (st : ResolverState) : List String :=
  st.unresolved.map (·.name)

/-- The names keyed in the resolved table. -/
def ResolverState.rNames (st : ResolverState) : List String :=
  st.resolved.map (·.name)

theorem removeByName_length {name : String} {l rest : List UnresolvedRecipe}
    {u : UnresolvedRecipe} (h : removeByName name l = some (u, rest)) :
    rest.length + 1 = l.length := by
  induction l generalizing rest with
  | nil => simp [removeByName] at h
  | cons r rs ih =>
    rw [removeByName] at h
    split at h
    · cases h; simp
    · cases hrec : removeByName name rs with
      | none => rw [hrec] at h; cases h
      | some p =>
        rcases p with ⟨u', rest'⟩
        rw [hrec] at h
        cases h
        simp [ih hrec]

/-- `removeByName` instrumented with the length bound of the remaining table, used so
that the recursion below is visibly terminating.  Behaviourally identical to
`removeByName` (see `removeByNameB_eq`). -/
def removeByNameB (name : String) (l : List UnresolvedRecipe) :
    Option (UnresolvedRecipe × { rest : List UnresolvedRecipe // rest.length < l.length }) :=
  match hrem : removeByName name l with
  | none => none
  | some (u, rest) =>
    some (u, ⟨rest, by have := removeByName_length hrem; omega⟩)

theorem removeByNameB_eq (name : String) (l : List UnresolvedRecipe) :
    (removeByNameB name l).map (fun p => (p.1, p.2.val)) = removeByName name l := by
  rw [removeByNameB]
  split <;> simp_all

mutual

/-- Embedding of `RecipeResolver::resolve_recipe` (src/recipe_resolver.rs:71-132).
The returned state carries a proof that the unresolved table has not grown, which
justifies termination of the mutual recursion. -/
def resolveRecipeCore (fres : Token → Nat → Except CompilationError Unit)
    (st : ResolverState) (stack : List String) (recipe : UnresolvedRecipe) :
    Except CompilationError
      (ResolvedRecipe × { st' : ResolverState // st'.unresolved.length ≤ st.unresolved.length }) :=
  match getResolved recipe.name st.resolved with
  | some resolved => .ok (resolved, ⟨st, Nat.le_refl _⟩)
  | none =>
    match resolveDepsCore fres st (stack ++ [recipe.name]) recipe.name recipe.dependencies with
    | .error e => .error e
    | .ok (deps, ⟨st', h⟩) =>
      .ok (ResolvedRecipe.mk recipe.name recipe.parameters deps recipe.body,
        ⟨⟨st'.unresolved,
          st'.resolved ++ [ResolvedRecipe.mk recipe.name recipe.parameters deps recipe.body]⟩,
          h⟩)
termination_by (st.unresolved.length, recipe.dependencies.length + 1)
decreasing_by
  exact Prod.Lex.right _ (Nat.lt_succ_self _)

/-- The dependency loop of `resolve_recipe` (src/recipe_resolver.rs:82-126), with the
accumulated `dependencies` vector returned instead of mutated in place.  `stack` is the
current DFS path including `recipeName` (nonempty whenever called), so `stack.headD ""`
is exactly Rust's `stack[0]`. -/
def resolveDepsCore (fres : Token → Nat → Except CompilationError Unit)
    (st : ResolverState) (stack : List String) (recipeName : String) (deps : List Token) :
    Except CompilationError
      (List ResolvedRecipe ×
        { st' : ResolverState // st'.unresolved.length ≤ st.unresolved.length }) :=
  match deps with
  | [] => .ok ([], ⟨st, Nat.le_refl _⟩)
  | d :: ds =>
    match getResolved d.lexeme st.resolved with
    | some resolved =>
      -- dependency already resolved
      if resolved.parameters.isEmpty then
        match resolveDepsCore fres st stack recipeName ds with
        | .error e => .error e
        | .ok (rest, st') => .ok (resolved :: rest, st')
      else
        .error (d.error (.DependencyHasParameters recipeName d.lexeme))
    | none =>
      if d.lexeme ∈ stack then
        .error (d.error (.CircularRecipeDependency recipeName
          ((stack ++ [stack.headD ""]).dropWhile fun s => s != d.lexeme)))
      else
        match removeByNameB d.lexeme st.unresolved with
        | some (dep, ⟨restUnresolved, hlt⟩) =>
          -- resolve unresolved dependency
          if dep.parameters.isEmpty then
            match resolveRecipeCore fres ⟨restUnresolved, st.resolved⟩ stack dep with
            | .error e => .error e
            | .ok (rr, ⟨st₁, h₁⟩) =>
              match resolveDepsCore fres st₁ stack recipeName ds with
              | .error e => .error e
              | .ok (rds, ⟨st₂, h₂⟩) =>
                .ok (rr :: rds, ⟨st₂, by simp only at h₁ h₂; omega⟩)
          else
            .error (d.error (.DependencyHasParameters recipeName d.lexeme))
        | none =>
          -- dependency is unknown
          .error (d.error (.UnknownDependency recipeName d.lexeme))
termination_by (st.unresolved.length, deps.length)
decreasing_by
  · simp_wf
    exact Prod.Lex.right _ (Nat.lt_succ_self _)
  · simp_wf
    exact Prod.Lex.left _ _ (by omega)
  · simp_wf
    simp only at h₁
    exact Prod.Lex.left _ _ (by omega)

end

/-- `resolve_recipe` with the termination bookkeeping erased: the shape of the Rust
function, returning the resolved recipe handle together with the updated state. -/
def resolve_recipe (fres : Token → Nat → Except CompilationError Unit)
    (st : ResolverState) (stack : List String) (recipe : UnresolvedRecipe) :
    Except CompilationError (ResolvedRecipe × ResolverState) :=
  match resolveRecipeCore fres st stack recipe with
  | .error e => .error e
  | .ok (r, st') => .ok (r, st'.val)

/-- The dependency loop with the termination bookkeeping erased. -/
def resolve_deps (fres : Token → Nat → Except CompilationError Unit)
    (st : ResolverState) (stack : List String) (recipeName : String) (deps : List Token) :
    Except CompilationError (List ResolvedRecipe × ResolverState) :=
  match resolveDepsCore fres st stack recipeName deps with
  | .error e => .error e
  | .ok (l, st') => .ok (l, st'.val)

/-- The outer worklist loop of `resolve_recipes` (src/recipe_resolver.rs:22-24):
repeatedly pop one entry from the unresolved table and resolve it with a fresh empty
stack; stop when the unresolved table is empty.  `pop()` removes an arbitrary entry
(§4.1); the embedding pops the head of the list. -/
def resolveLoop (fres : Token → Nat → Except CompilationError Unit) :
    ResolverState → Except CompilationError ResolverState
  | ⟨[], resolved⟩ => .ok ⟨[], resolved⟩
  | ⟨r :: rest, resolved⟩ =>
    match resolveRecipeCore fres ⟨rest, resolved⟩ [] r with
    | .error e => .error e
    | .ok (_, ⟨st', hle⟩) => resolveLoop fres st'
termination_by st => st.unresolved.length
decreasing_by
  simp_wf
  simp only at hle
  omega

/-- Embedding of `RecipeResolver::resolve_variable` (src/recipe_resolver.rs:55-69):
a variable reference is defined when its name is a key of the assignment table or the
name of one of the given parameters.  The assignment table is external and read-only;
only key membership (`contains_key`) is queried, so it is embedded as its key list. -/
def resolve_variable (assignments : List String) (variableTok : Token)
    (parameters : List Parameter) : Except CompilationError Unit :=
  let name := variableTok.lexeme
  let undefined :=
    !assignments.contains name && !parameters.any fun p => p.name.lexeme == name
  if undefined then
    .error (variableTok.error (.UndefinedVariable name))
  else
    .ok ()

/-- The function-reference check loop shared by both validation sites
(src/recipe_resolver.rs:29-31 and 41-43): call the external resolver on every
function reference, propagating its failure as-is. -/
def checkFunctions (fres : Token → Nat → Except CompilationError Unit) :
    List (Token × Nat) → Except CompilationError Unit
  | [] => .ok ()
  | (function, argc) :: rest =>
    match fres function argc with
    | .error e => .error e
    | .ok _ => checkFunctions fres rest

/-- The variable-reference check loop shared by both validation sites
(src/recipe_resolver.rs:32-34 and 44-46). -/
def checkVariables (assignments : List String) (parameters : List Parameter) :
    List Token → Except CompilationError Unit
  | [] => .ok ()
  | v :: rest =>
    match resolve_variable assignments v parameters with
    | .error e => .error e
    | .ok _ => checkVariables assignments parameters rest

/-- Validation of the parameters' default expressions of one recipe
(src/recipe_resolver.rs:27-36): function references first, then variable references
against the assignment table only (`resolver.resolve_variable(&variable, &[])`). -/
def validateDefaults (fres : Token → Nat → Except CompilationError Unit)
    (assignments : List String) : List Parameter → Except CompilationError Unit
  | [] => .ok ()
  | p :: ps =>
    match p.default with
    | none => validateDefaults fres assignments ps
    | some expression =>
      match checkFunctions fres expression.functions with
      | .error e => .error e
      | .ok _ =>
        match checkVariables assignments [] expression.vars with
        | .error e => .error e
        | .ok _ => validateDefaults fres assignments ps

/-- Validation of one body line's fragments (src/recipe_resolver.rs:39-48): only
interpolation fragments are checked; function references first, then variable
references against the assignment table or the recipe's own parameters. -/
def validateFragments (fres : Token → Nat → Except CompilationError Unit)
    (assignments : List String) (parameters : List Parameter) :
    List Fragment → Except CompilationError Unit
  | [] => .ok ()
  | .text _ :: rest => validateFragments fres assignments parameters rest
  | .interpolation expression :: rest =>
    match checkFunctions fres expression.functions with
    | .error e => .error e
    | .ok _ =>
      match checkVariables assignments parameters expression.vars with
      | .error e => .error e
      | .ok _ => validateFragments fres assignments parameters rest

/-- Validation of a recipe body (src/recipe_resolver.rs:38-49). -/
def validateLines (fres : Token → Nat → Except CompilationError Unit)
    (assignments : List String) (parameters : List Parameter) :
    List Line → Except CompilationError Unit
  | [] => .ok ()
  | line :: rest =>
    match validateFragments fres assignments parameters line.fragments with
    | .error e => .error e
    | .ok _ => validateLines fres assignments parameters rest

/-- The expression-validation pass over the resolved table
(src/recipe_resolver.rs:26-50): for every resolved recipe, validate the parameter
defaults (parameter names not in scope) and then the body interpolations (the recipe's
own parameters in scope). -/
def validateRecipes (fres : Token → Nat → Except CompilationError Unit)
    (assignments : List String) : List ResolvedRecipe → Except CompilationError Unit
  | [] => .ok ()
  | recipe :: rest =>
    match validateDefaults fres assignments recipe.parameters with
    | .error e => .error e
    | .ok _ =>
      match validateLines fres assignments recipe.parameters recipe.body with
      | .error e => .error e
      | .ok _ => validateRecipes fres assignments rest

/-- Embedding of `RecipeResolver::resolve_recipes` (src/recipe_resolver.rs:12-53):
run the dependency-resolution worklist loop starting from the unresolved table and an
empty resolved table, then the expression-validation pass over the resolved table,
returning it on success.  `fres` is the external builtin-function resolver
`Function::resolve` (§3), passed in at its boundary. -/
def resolve_recipes (fres : Token → Nat → Except CompilationError Unit)
    (unresolvedRecipes : List UnresolvedRecipe) (assignments : List String) :
    Except CompilationError (List ResolvedRecipe) :=
  match resolveLoop fres ⟨unresolvedRecipes, []⟩ with
  | .error e => .error e
  | .ok st =>
    match validateRecipes fres assignments st.resolved with
    | .error e => .error e
    | .ok _ => .ok st.resolved

/-!
## Surface equations

The recursion above is defined by well-founded recursion with a termination bound
carried in a subtype.  The lemmas in this section restate the defining equations of the
erased functions `resolve_recipe`, `resolve_deps` and `resolveLoop` exactly in the shape
of the Rust source, so that all later reasoning can proceed against the source's own
case structure.
-/

theorem resolve_deps_nil (fres : Token → Nat → Except CompilationError Unit)
    (st : ResolverState) (stack : List String) (recipeName : String) :
    resolve_deps fres st stack recipeName [] = .ok ([], st) := by
  simp [resolve_deps, resolveDepsCore]

theorem resolve_deps_cons (fres : Token → Nat → Except CompilationError Unit)
    (st : ResolverState) (stack : List String) (recipeName : String) (d : Token)
    (ds : List Token) :
    resolve_deps fres st stack recipeName (d :: ds) =
      match getResolved d.lexeme st.resolved with
      | some resolved =>
        if resolved.parameters.isEmpty then
          match resolve_deps fres st stack recipeName ds with
          | .error e => .error e
          | .ok (rest, st') => .ok (resolved :: rest, st')
        else .error (d.error (.DependencyHasParameters recipeName d.lexeme))
      | none =>
        if d.lexeme ∈ stack then
          .error (d.error (.CircularRecipeDependency recipeName
            ((stack ++ [stack.headD ""]).dropWhile fun s => s != d.lexeme)))
        else
          match removeByName d.lexeme st.unresolved with
          | some (dep, restUnresolved) =>
            if dep.parameters.isEmpty then
              match resolve_recipe fres ⟨restUnresolved, st.resolved⟩ stack dep with
              | .error e => .error e
              | .ok (rr, st₁) =>
                match resolve_deps fres st₁ stack recipeName ds with
                | .error e => .error e
                | .ok (rds, st₂) => .ok (rr :: rds, st₂)
            else .error (d.error (.DependencyHasParameters recipeName d.lexeme))
          | none => .error (d.error (.UnknownDependency recipeName d.lexeme)) := by
  unfold resolve_deps
  rw [resolveDepsCore]
  cases hg : getResolved d.lexeme st.resolved with
  | some resolved =>
    by_cases hp : resolved.parameters.isEmpty
    · simp only [hp, if_true]
      cases hds : resolveDepsCore fres st stack recipeName ds with
      | error e => rfl
      | ok p => rcases p with ⟨l, st', h⟩; rfl
    · simp [hp]
  | none =>
    by_cases hs : d.lexeme ∈ stack
    · simp [hs]
    · simp only [hs, if_false]
      cases hb : removeByNameB d.lexeme st.unresolved with
      | none =>
        have hr : removeByName d.lexeme st.unresolved = none := by
          rw [← removeByNameB_eq, hb]; rfl
        simp [hr]
      | some p =>
        rcases p with ⟨dep, restUnresolved, hlt⟩
        have hr : removeByName d.lexeme st.unresolved = some (dep, restUnresolved) := by
          rw [← removeByNameB_eq, hb]; rfl
        simp only [hr]
        by_cases hp : dep.parameters.isEmpty
        · simp only [hp, if_true]
          cases hrr : resolveRecipeCore fres ⟨restUnresolved, st.resolved⟩ stack dep with
          | error e => simp [resolve_recipe, hrr]
          | ok q =>
            rcases q with ⟨rr, st₁, h₁⟩
            simp only [resolve_recipe, hrr]
            cases hds : resolveDepsCore fres st₁ stack recipeName ds with
            | error e => rfl
            | ok p => rcases p with ⟨l, st₂, h₂⟩; rfl
        · simp [hp]

theorem resolve_recipe_unfold (fres : Token → Nat → Except CompilationError Unit)
    (st : ResolverState) (stack : List String) (recipe : UnresolvedRecipe) :
    resolve_recipe fres st stack recipe =
      match getResolved recipe.name st.resolved with
      | some resolved => .ok (resolved, st)
      | none =>
        match resolve_deps fres st (stack ++ [recipe.name]) recipe.name recipe.dependencies with
        | .error e => .error e
        | .ok (deps, st') =>
          .ok (ResolvedRecipe.mk recipe.name recipe.parameters deps recipe.body,
            ⟨st'.unresolved,
              st'.resolved ++ [ResolvedRecipe.mk recipe.name recipe.parameters deps recipe.body]⟩) := by
  unfold resolve_recipe
  rw [resolveRecipeCore]
  cases hg : getResolved recipe.name st.resolved with
  | some r => rfl
  | none =>
    cases hds : resolveDepsCore fres st (stack ++ [recipe.name]) recipe.name recipe.dependencies with
    | error e => simp [resolve_deps, hds]
    | ok p => rcases p with ⟨l, st', h⟩; simp [resolve_deps, hds]

/-- Soundness of the termination instrumentation: on success the unresolved table has
not grown. -/
theorem resolve_recipe_unresolved_le (fres : Token → Nat → Except CompilationError Unit)
    {st : ResolverState} {stack : List String} {recipe : UnresolvedRecipe}
    {rr : ResolvedRecipe} {st' : ResolverState}
    (h : resolve_recipe fres st stack recipe = .ok (rr, st')) :
    st'.unresolved.length ≤ st.unresolved.length := by
  unfold resolve_recipe at h
  cases hcore : resolveRecipeCore fres st stack recipe with
  | error e => rw [hcore] at h; cases h
  | ok p =>
    rcases p with ⟨r, stb, hle⟩
    rw [hcore] at h
    cases h
    exact hle

/-- Soundness of the termination instrumentation for the dependency loop. -/
theorem resolve_deps_unresolved_le (fres : Token → Nat → Except CompilationError Unit)
    {st : ResolverState} {stack : List String} {recipeName : String} {deps : List Token}
    {l : List ResolvedRecipe} {st' : ResolverState}
    (h : resolve_deps fres st stack recipeName deps = .ok (l, st')) :
    st'.unresolved.length ≤ st.unresolved.length := by
  unfold resolve_deps at h
  cases hcore : resolveDepsCore fres st stack recipeName deps with
  | error e => rw [hcore] at h; cases h
  | ok p =>
    rcases p with ⟨l', stb, hle⟩
    rw [hcore] at h
    cases h
    exact hle

theorem resolveLoop_nil (fres : Token → Nat → Except CompilationError Unit)
    (resolved : List ResolvedRecipe) :
    resolveLoop fres ⟨[], resolved⟩ = .ok ⟨[], resolved⟩ := by
  rw [resolveLoop]

theorem resolveLoop_cons (fres : Token → Nat → Except CompilationError Unit)
    (r : UnresolvedRecipe) (rest : List UnresolvedRecipe) (resolved : List ResolvedRecipe) :
    resolveLoop fres ⟨r :: rest, resolved⟩ =
      match resolve_recipe fres ⟨rest, resolved⟩ [] r with
      | .error e => .error e
      | .ok (_, st') => resolveLoop fres st' := by
  rw [resolveLoop]
  cases hcore : resolveRecipeCore fres ⟨rest, resolved⟩ [] r with
  | error e => simp [resolve_recipe, hcore]
  | ok p => rcases p with ⟨rr, st', hle⟩; simp [resolve_recipe, hcore]

/-!
## Properties of the table operations
-/

theorem getResolved_some {name : String} {l : List ResolvedRecipe} {r : ResolvedRecipe}
    (h : getResolved name l = some r) : r ∈ l ∧ r.name = name := by
  induction l with
  | nil => simp [getResolved] at h
  | cons x xs ih =>
    rw [getResolved] at h
    split at h
    · cases h
      exact ⟨List.mem_cons_self _ _, by assumption⟩
    · rcases ih h with ⟨hmem, hname⟩
      exact ⟨List.mem_cons_of_mem _ hmem, hname⟩

theorem getResolved_eq_none {name : String} {l : List ResolvedRecipe} :
    getResolved name l = none ↔ name ∉ l.map (·.name) := by
  induction l with
  | nil => simp [getResolved]
  | cons x xs ih =>
    rw [getResolved]
    split
    · simp_all
    · simp_all [eq_comm]

theorem getResolved_isSome {name : String} {l : List ResolvedRecipe}
    (h : name ∈ l.map (·.name)) : ∃ r, getResolved name l = some r := by
  cases hg : getResolved name l with
  | none => exact absurd h (getResolved_eq_none.mp hg)
  | some r => exact ⟨r, rfl⟩

theorem removeByName_eq_none {name : String} {l : List UnresolvedRecipe} :
    removeByName name l = none ↔ name ∉ l.map (·.name) := by
  induction l with
  | nil => simp [removeByName]
  | cons x xs ih =>
    rw [removeByName]
    split
    · simp_all
    · cases hrec : removeByName name xs with
      | none => simp_all [eq_comm]
      | some p => simp_all [eq_comm]

/-- Structure of a successful removal: the table splits around the removed entry, whose
name is the requested key and does not occur before it. -/
theorem removeByName_spec {name : String} {l rest : List UnresolvedRecipe}
    {u : UnresolvedRecipe} (h : removeByName name l = some (u, rest)) :
    u.name = name ∧ ∃ l₁ l₂, l = l₁ ++ u :: l₂ ∧ rest = l₁ ++ l₂ := by
  induction l generalizing rest with
  | nil => simp [removeByName] at h
  | cons x xs ih =>
    rw [removeByName] at h
    split at h
    · cases h
      exact ⟨by assumption, [], xs, rfl, rfl⟩
    · cases hrec : removeByName name xs with
      | none => rw [hrec] at h; cases h
      | some p =>
        rcases p with ⟨u', rest'⟩
        rw [hrec] at h
        cases h
        rcases ih hrec with ⟨hname, l₁, l₂, hsplit, hrest⟩
        exact ⟨hname, x :: l₁, l₂, by simp [hsplit], by simp [hrest]⟩

theorem removeByName_sublist {name : String} {l rest : List UnresolvedRecipe}
    {u : UnresolvedRecipe} (h : removeByName name l = some (u, rest)) :
    rest.Sublist l := by
  rcases removeByName_spec h with ⟨-, l₁, l₂, hsplit, hrest⟩
  subst hsplit hrest
  exact List.Sublist.append_left ((List.Sublist.refl l₂).cons u) l₁

theorem removeByName_mem {name : String} {l rest : List UnresolvedRecipe}
    {u : UnresolvedRecipe} (h : removeByName name l = some (u, rest)) : u ∈ l := by
  rcases removeByName_spec h with ⟨-, l₁, l₂, hsplit, -⟩
  subst hsplit
  simp

/-- With nodup names, the removed entry's name does not survive in the rest. -/
theorem removeByName_not_mem_rest {name : String} {l rest : List UnresolvedRecipe}
    {u : UnresolvedRecipe} (hnd : (l.map (·.name)).Nodup)
    (h : removeByName name l = some (u, rest)) : name ∉ rest.map (·.name) := by
  rcases removeByName_spec h with ⟨hname, l₁, l₂, hsplit, hrest⟩
  subst hsplit hrest hname
  simp only [List.map_append, List.map_cons, List.nodup_append] at hnd ⊢
  rcases hnd with ⟨hnd₁, hnd₂, hdisj⟩
  simp only [List.map_append, List.mem_append]
  rintro (hin | hin)
  · exact hdisj hin (List.mem_cons_self _ _)
  · exact (List.nodup_cons.mp hnd₂).1 hin

/-!
## Properties of the expression-validation pass
-/

/-- The scope check of `resolve_variable`, as a proposition: defined in the assignment
table or among the given parameters. -/
def InScope (assignments : List String) (parameters : List Parameter) (v : Token) : Prop :=
  v.lexeme ∈ assignments ∨ ∃ p ∈ parameters, p.name.lexeme = v.lexeme

theorem contains_eq_true_iff (l : List String) (a : String) :
    l.contains a = true ↔ a ∈ l := List.elem_iff

/-- The `undefined` condition computed by `resolve_variable` is exactly the negation of
`InScope`. -/
theorem undefined_eq_true_iff (assignments : List String) (parameters : List Parameter)
    (v : Token) :
    ((!assignments.contains v.lexeme &&
        !parameters.any fun p => p.name.lexeme == v.lexeme) = true) ↔
      ¬ InScope assignments parameters v := by
  rw [Bool.and_eq_true, Bool.not_eq_true', Bool.not_eq_true']
  unfold InScope
  constructor
  · rintro ⟨hc, ha⟩ (hin | ⟨p, hp, hname⟩)
    · rw [← contains_eq_true_iff] at hin
      rw [hin] at hc; cases hc
    · rw [List.any_eq_false] at ha
      exact ha p hp (by simp [hname])
  · intro h
    constructor
    · by_cases hin : v.lexeme ∈ assignments
      · exact absurd (Or.inl hin) h
      · cases hc : assignments.contains v.lexeme with
        | false => rfl
        | true => exact absurd (Or.inl ((contains_eq_true_iff _ _).mp hc)) h
    · rw [List.any_eq_false]
      intro p hp hbeq
      exact h (Or.inr ⟨p, hp, by simpa using hbeq⟩)

theorem resolve_variable_ok_iff (assignments : List String) (v : Token)
    (parameters : List Parameter) :
    resolve_variable assignments v parameters = .ok () ↔ InScope assignments parameters v := by
  unfold resolve_variable
  dsimp only
  split
  · rename_i hcond
    rw [undefined_eq_true_iff] at hcond
    constructor
    · intro h; cases h
    · intro h; exact absurd h hcond
  · rename_i hcond
    rw [undefined_eq_true_iff, not_not] at hcond
    exact ⟨fun _ => hcond, fun _ => rfl⟩

theorem resolve_variable_error (assignments : List String) (v : Token)
    (parameters : List Parameter) (h : ¬ InScope assignments parameters v) :
    resolve_variable assignments v parameters =
      .error (v.error (.UndefinedVariable v.lexeme)) := by
  unfold resolve_variable
  dsimp only
  split
  · rfl
  · rename_i hcond
    rw [undefined_eq_true_iff, not_not] at hcond
    exact absurd hcond h

theorem checkFunctions_ok_iff (fres : Token → Nat → Except CompilationError Unit)
    (fs : List (Token × Nat)) :
    checkFunctions fres fs = .ok () ↔ ∀ fc ∈ fs, fres fc.1 fc.2 = .ok () := by
  induction fs with
  | nil => simp [checkFunctions]
  | cons fc rest ih =>
    rcases fc with ⟨f, argc⟩
    rw [checkFunctions]
    cases hf : fres f argc with
    | error e =>
      simp only [List.mem_cons]
      constructor
      · intro h; cases h
      · intro h
        have := h (f, argc) (Or.inl rfl)
        rw [hf] at this; cases this
    | ok u =>
      cases u
      rw [ih]
      constructor
      · intro h fc hfc
        rcases List.mem_cons.mp hfc with heq | hmem
        · subst heq; exact hf
        · exact h fc hmem
      · intro h fc hfc
        exact h fc (List.mem_cons_of_mem _ hfc)

/-- Fail-fast behaviour of the function check: the first failing function reference's
error is returned. -/
theorem checkFunctions_error (fres : Token → Nat → Except CompilationError Unit)
    (pre post : List (Token × Nat)) (f : Token) (argc : Nat) (e : CompilationError)
    (hpre : ∀ fc ∈ pre, fres fc.1 fc.2 = .ok ()) (hf : fres f argc = .error e) :
    checkFunctions fres (pre ++ (f, argc) :: post) = .error e := by
  induction pre with
  | nil => simp [checkFunctions, hf]
  | cons fc rest ih =>
    rw [List.cons_append, checkFunctions]
    have h1 := hpre fc (List.mem_cons_self _ _)
    rcases fc with ⟨f', argc'⟩
    rw [h1]
    exact ih fun fc hfc => hpre fc (List.mem_cons_of_mem _ hfc)

theorem checkVariables_ok_iff (assignments : List String) (parameters : List Parameter)
    (vs : List Token) :
    checkVariables assignments parameters vs = .ok () ↔
      ∀ v ∈ vs, InScope assignments parameters v := by
  induction vs with
  | nil => simp [checkVariables]
  | cons v rest ih =>
    rw [checkVariables]
    cases hv : resolve_variable assignments v parameters with
    | error e =>
      constructor
      · intro h; cases h
      · intro h
        have := (resolve_variable_ok_iff assignments v parameters).mpr
          (h v (List.mem_cons_self _ _))
        rw [hv] at this; cases this
    | ok u =>
      cases u
      rw [ih]
      constructor
      · intro h v' hv'
        rcases List.mem_cons.mp hv' with heq | hmem
        · subst heq
          exact (resolve_variable_ok_iff assignments v' parameters).mp hv
        · exact h v' hmem
      · intro h v' hv'
        exact h v' (List.mem_cons_of_mem _ hv')

/-- Fail-fast behaviour of the variable check: the first out-of-scope variable
reference yields `UndefinedVariable` with that variable's name. -/
theorem checkVariables_error (assignments : List String) (parameters : List Parameter)
    (pre post : List Token) (v : Token)
    (hpre : ∀ u ∈ pre, InScope assignments parameters u)
    (hv : ¬ InScope assignments parameters v) :
    checkVariables assignments parameters (pre ++ v :: post) =
      .error (v.error (.UndefinedVariable v.lexeme)) := by
  induction pre with
  | nil =>
    rw [List.nil_append, checkVariables, resolve_variable_error assignments v parameters hv]
  | cons u rest ih =>
    rw [List.cons_append, checkVariables]
    have h1 := (resolve_variable_ok_iff assignments u parameters).mpr
      (hpre u (List.mem_cons_self _ _))
    rw [h1]
    exact ih fun u' hu' => hpre u' (List.mem_cons_of_mem _ hu')

/-- The dependency loop processes a concatenation left to right, threading the state. -/
theorem resolve_deps_append (fres : Token → Nat → Except CompilationError Unit)
    (st : ResolverState) (stack : List String) (recipeName : String)
    (xs ys : List Token) :
    resolve_deps fres st stack recipeName (xs ++ ys) =
      match resolve_deps fres st stack recipeName xs with
      | .error e => .error e
      | .ok (l, st') =>
        match resolve_deps fres st' stack recipeName ys with
        | .error e => .error e
        | .ok (l', st'') => .ok (l ++ l', st'') := by
  induction xs generalizing st with
  | nil =>
    rw [List.nil_append, resolve_deps_nil]
    dsimp only
    cases h : resolve_deps fres st stack recipeName ys with
    | error e => rfl
    | ok p => rcases p with ⟨l', st''⟩; simp
  | cons d ds ih =>
    rw [List.cons_append, resolve_deps_cons, resolve_deps_cons fres st stack recipeName d ds]
    cases hg : getResolved d.lexeme st.resolved with
    | some resolved =>
      by_cases hp : resolved.parameters.isEmpty
      · simp only [hp, if_true, ih st]
        cases hds : resolve_deps fres st stack recipeName ds with
        | error e => rfl
        | ok p =>
          rcases p with ⟨l, st'⟩
          dsimp only
          cases hys : resolve_deps fres st' stack recipeName ys with
          | error e => rfl
          | ok q => rcases q with ⟨l', st''⟩; simp
      · simp [hp]
    | none =>
      by_cases hs : d.lexeme ∈ stack
      · simp only [hs, if_true]
      · simp only [hs, if_false]
        cases hr : removeByName d.lexeme st.unresolved with
        | none => rfl
        | some p =>
          rcases p with ⟨dep, restUnresolved⟩
          dsimp only
          by_cases hp : dep.parameters.isEmpty
          · simp only [hp, if_true]
            cases hrr : resolve_recipe fres ⟨restUnresolved, st.resolved⟩ stack dep with
            | error e => rfl
            | ok q =>
              rcases q with ⟨rr, st₁⟩
              dsimp only
              rw [ih st₁]
              cases hds : resolve_deps fres st₁ stack recipeName ds with
              | error e => rfl
              | ok p' =>
                rcases p' with ⟨l, st₂⟩
                dsimp only
                cases hys : resolve_deps fres st₂ stack recipeName ys with
                | error e => rfl
                | ok q' => rcases q' with ⟨l', st₃⟩; simp
          · simp [hp]

/-!
## Claim theorems (with witnesses)
-/

/-- C9: `resolve_recipe` is memoizing — when the recipe's name already has an entry in
the resolved table, it returns that existing shared handle immediately with the state
completely unchanged (no stack push, no dependency examination, no insertion), so a
recipe depended on by many others is resolved at most once and all dependents share the
one handle. -/
theorem resolve_recipe_memoized (fres : Token → Nat → Except CompilationError Unit)
    (st : ResolverState) (stack : List String) (recipe : UnresolvedRecipe)
    (r : ResolvedRecipe) (h : getResolved recipe.name st.resolved = some r) :
    resolve_recipe fres st stack recipe = .ok (r, st) := by
  rw [resolve_recipe_unfold, h]

theorem resolve_recipe_memoized_witness :
    resolve_recipe (fun _ _ => .ok ()) ⟨[], [ResolvedRecipe.mk "a" [] [] []]⟩ []
        ⟨"a", [], [], []⟩ =
      .ok (ResolvedRecipe.mk "a" [] [] [], ⟨[], [ResolvedRecipe.mk "a" [] [] []]⟩) :=
  resolve_recipe_memoized _ _ _ _ _ (by rfl)

/-- C3: `resolve_recipes` is fail-fast and phase-ordered — if the dependency-resolution
loop fails, the whole pass returns that very error and no resolved table is produced;
the expression-validation checks run only on the state produced by a completed,
successful dependency-resolution loop. -/
theorem resolve_recipes_fail_fast_phase_order (fres : Token → Nat → Except CompilationError Unit)
    (T : List UnresolvedRecipe) (assignments : List String) :
    (∀ e, resolveLoop fres ⟨T, []⟩ = .error e →
      resolve_recipes fres T assignments = .error e) ∧
    (∀ st, resolveLoop fres ⟨T, []⟩ = .ok st →
      resolve_recipes fres T assignments =
        match validateRecipes fres assignments st.resolved with
        | .error e => .error e
        | .ok _ => .ok st.resolved) := by
  constructor
  · intro e h
    unfold resolve_recipes
    rw [h]
  · intro st h
    unfold resolve_recipes
    rw [h]

theorem resolve_recipes_fail_fast_phase_order_witness :
    resolve_recipes (fun _ _ => .ok ()) [] [] = .ok [] :=
  (resolve_recipes_fail_fast_phase_order (fun _ _ => .ok ()) [] []).2 ⟨[], []⟩
    (resolveLoop_nil _ [])

/-- C10: within one expression, all function references are checked against the
builtin-function resolver before any variable reference is checked against the scope,
at both validation sites (parameter defaults and body interpolations): if some function
reference fails (after earlier ones succeeded), the pass reports that function error,
regardless of any undefined variable references in the same expression. -/
theorem functions_checked_before_variables (fres : Token → Nat → Except CompilationError Unit)
    (assignments : List String) (parameters : List Parameter) (e : Expression)
    (ef : CompilationError) (pre post : List (Token × Nat)) (f : Token) (argc : Nat)
    (hsplit : e.functions = pre ++ (f, argc) :: post)
    (hpre : ∀ fc ∈ pre, fres fc.1 fc.2 = .ok ())
    (hf : fres f argc = .error ef) :
    (∀ p : Parameter, p.default = some e →
      validateDefaults fres assignments [p] = .error ef) ∧
    validateFragments fres assignments parameters [.interpolation e] = .error ef := by
  have hcf : checkFunctions fres e.functions = .error ef := by
    rw [hsplit]
    exact checkFunctions_error _ _ _ _ _ _ hpre hf
  constructor
  · intro p hp
    rw [validateDefaults, hp]
    dsimp only
    rw [hcf]
  · rw [validateFragments, hcf]

theorem functions_checked_before_variables_witness :
    (validateDefaults (fun t _ => .error (t.error (.UnknownFunction t.lexeme))) []
        [⟨tok "p", some ⟨[(tok "bar", 0)], [tok "undefinedvar"]⟩⟩] =
      .error (Token.error (tok "bar") (.UnknownFunction "bar"))) ∧
    (validateFragments (fun t _ => .error (t.error (.UnknownFunction t.lexeme))) [] []
        [.interpolation ⟨[(tok "bar", 0)], [tok "undefinedvar"]⟩] =
      .error (Token.error (tok "bar") (.UnknownFunction "bar"))) := by
  have h := functions_checked_before_variables
    (fun t _ => .error (t.error (.UnknownFunction t.lexeme))) [] []
    ⟨[(tok "bar", 0)], [tok "undefinedvar"]⟩
    (Token.error (tok "bar") (.UnknownFunction "bar")) [] [] (tok "bar") 0
    rfl (by simp) rfl
  exact ⟨h.1 _ rfl, h.2⟩

/-- C7: inside a parameter's default expression, a variable reference validates
exactly when its name is a key of the assignment table; the recipe's parameter names
(the defaulted parameter itself included) are not in scope, and an out-of-table name
fails with `UndefinedVariable` carrying that name.  The third conjunct exercises the
call site: the defaults validator checks variables with an empty parameter scope, so
it rejects a default referencing a name even when that name is a parameter of the
very same recipe. -/
theorem default_scope_assignments_only (fres : Token → Nat → Except CompilationError Unit)
    (assignments : List String) :
    (∀ v : Token, resolve_variable assignments v [] = .ok () ↔ v.lexeme ∈ assignments) ∧
    (∀ v : Token, v.lexeme ∉ assignments →
      resolve_variable assignments v [] = .error (v.error (.UndefinedVariable v.lexeme))) ∧
    (∀ (p : Parameter) (e : Expression) (v : Token), p.default = some e →
      e.functions = [] → e.vars = [v] → v.lexeme ∉ assignments →
      validateDefaults fres assignments [p] =
        .error (v.error (.UndefinedVariable v.lexeme))) := by
  refine ⟨fun v => ?_, fun v hv => ?_, fun p e v hp hfn hvars hv => ?_⟩
  · rw [resolve_variable_ok_iff]
    unfold InScope
    simp
  · apply resolve_variable_error
    unfold InScope
    simp [hv]
  · have hcv : checkVariables assignments [] [v] =
        .error (v.error (.UndefinedVariable v.lexeme)) := by
      have h := checkVariables_error assignments [] [] [] v
        (by intro u hu; cases hu) (by unfold InScope; simp [hv])
      simpa using h
    rw [validateDefaults, hp]
    dsimp only
    rw [hfn, hvars, hcv]
    rfl

theorem default_scope_assignments_only_witness :
    (resolve_variable [] (tok "x") [] = .ok () ↔ "x" ∈ ([] : List String)) ∧
    (validateDefaults (fun _ _ => .ok ()) []
        [⟨tok "x", some ⟨[], [tok "x"]⟩⟩] =
      .error (Token.error (tok "x") (.UndefinedVariable "x"))) := by
  have h := default_scope_assignments_only (fun _ _ => .ok ()) []
  exact ⟨h.1 (tok "x"), h.2.2 ⟨tok "x", some ⟨[], [tok "x"]⟩⟩ ⟨[], [tok "x"]⟩ (tok "x")
    rfl rfl rfl (by simp)⟩

/-- C8: inside a body-line interpolation, a variable reference validates exactly when
its name is a key of the assignment table or the name of one of the recipe's own
parameters; otherwise validation fails with `UndefinedVariable` carrying that name.
The third conjunct exercises the call site: the fragment validator checks interpolation
variables with the recipe's parameters in scope. -/
theorem body_scope_assignments_or_parameters (fres : Token → Nat → Except CompilationError Unit)
    (assignments : List String) (parameters : List Parameter) :
    (∀ v : Token, resolve_variable assignments v parameters = .ok () ↔
      (v.lexeme ∈ assignments ∨ ∃ p ∈ parameters, p.name.lexeme = v.lexeme)) ∧
    (∀ v : Token, v.lexeme ∉ assignments → (∀ p ∈ parameters, p.name.lexeme ≠ v.lexeme) →
      resolve_variable assignments v parameters =
        .error (v.error (.UndefinedVariable v.lexeme))) ∧
    (∀ e : Expression, (∀ fc ∈ e.functions, fres fc.1 fc.2 = .ok ()) →
      (validateFragments fres assignments parameters [.interpolation e] = .ok () ↔
        ∀ v ∈ e.vars, v.lexeme ∈ assignments ∨ ∃ p ∈ parameters, p.name.lexeme = v.lexeme)) := by
  refine ⟨fun v => resolve_variable_ok_iff assignments v parameters,
    fun v hv hps => ?_, fun e hfn => ?_⟩
  · apply resolve_variable_error
    unfold InScope
    rintro (hin | ⟨p, hp, hname⟩)
    · exact hv hin
    · exact hps p hp hname
  · rw [validateFragments, (checkFunctions_ok_iff fres e.functions).mpr hfn]
    dsimp only
    cases hcv : checkVariables assignments parameters e.vars with
    | error err =>
      constructor
      · intro h; cases h
      · intro h
        have := (checkVariables_ok_iff assignments parameters e.vars).mpr h
        rw [hcv] at this; cases this
    | ok u =>
      cases u
      have := (checkVariables_ok_iff assignments parameters e.vars).mp hcv
      exact ⟨fun _ => this, fun _ => rfl⟩

theorem body_scope_assignments_or_parameters_witness :
    (resolve_variable [] (tok "f") [⟨tok "f", none⟩] = .ok () ↔
      ((tok "f").lexeme ∈ ([] : List String) ∨ ∃ p ∈ [(⟨tok "f", none⟩ : Parameter)],
        p.name.lexeme = (tok "f").lexeme)) ∧
    (validateFragments (fun _ _ => .ok ()) [] [⟨tok "f", none⟩]
        [.interpolation ⟨[], [tok "f"]⟩] = .ok () ↔
      ∀ v ∈ [tok "f"], v.lexeme ∈ ([] : List String) ∨
        ∃ p ∈ [(⟨tok "f", none⟩ : Parameter)], p.name.lexeme = v.lexeme) := by
  have h := body_scope_assignments_or_parameters (fun _ _ => .ok ()) [] [⟨tok "f", none⟩]
  exact ⟨h.1 (tok "f"), h.2.2 ⟨[], [tok "f"]⟩ (by simp)⟩

theorem dropWhile_append_of_mem {a : String} {l : List String} (h : a ∈ l)
    (l₂ : List String) :
    (l ++ l₂).dropWhile (fun s => s != a) = l.dropWhile (fun s => s != a) ++ l₂ := by
  induction l with
  | nil => cases h
  | cons x xs ih =>
    by_cases hx : x = a
    · subst hx
      simp [List.dropWhile]
    · have hmem : a ∈ xs := by
        rcases List.mem_cons.mp h with heq | hm
        · exact absurd heq.symm hx
        · exact hm
      have hpx : (x != a) = true := by simp [hx]
      simp only [List.cons_append, List.dropWhile_cons]
      rw [hpx]
      simpa using ih hmem

/-- C2: when a dependency token `d` of the recipe being resolved names a recipe that is
on the current DFS stack (and is not already resolved), `resolve_recipe` fails with
`CircularRecipeDependency` whose `recipe` field is the current recipe's name and whose
`circle` is the sub-sequence of the stack (the path including the current recipe)
starting at the first occurrence of `d`'s name through the end, with the stack's first
element appended once more; a self-dependency therefore yields `[name, name]` (see the
witness). -/
theorem resolve_recipe_circular_dependency (fres : Token → Nat → Except CompilationError Unit)
    (st : ResolverState) (stack : List String) (recipe : UnresolvedRecipe)
    (pre post : List Token) (d : Token) (l : List ResolvedRecipe) (st₁ : ResolverState)
    (hmemo : getResolved recipe.name st.resolved = none)
    (hdeps : recipe.dependencies = pre ++ d :: post)
    (hpre : resolve_deps fres st (stack ++ [recipe.name]) recipe.name pre = .ok (l, st₁))
    (hres : getResolved d.lexeme st₁.resolved = none)
    (hstk : d.lexeme ∈ stack ++ [recipe.name]) :
    resolve_recipe fres st stack recipe =
      .error (d.error (.CircularRecipeDependency recipe.name
        (((stack ++ [recipe.name]).dropWhile fun s => s != d.lexeme) ++
          [(stack ++ [recipe.name]).headD ""]))) := by
  rw [resolve_recipe_unfold, hmemo, hdeps, resolve_deps_append, hpre]
  dsimp only
  rw [resolve_deps_cons, hres]
  dsimp only
  rw [if_pos hstk, dropWhile_append_of_mem hstk]

theorem resolve_recipe_circular_dependency_witness :
    resolve_recipe (fun _ _ => .ok ()) ⟨[], []⟩ [] ⟨"a", [], [tok "a"], []⟩ =
      .error ((tok "a").error (.CircularRecipeDependency "a" ["a", "a"])) := by
  have h := resolve_recipe_circular_dependency (fun _ _ => .ok ()) ⟨[], []⟩ []
    ⟨"a", [], [tok "a"], []⟩ [] [] (tok "a") [] ⟨[], []⟩ rfl rfl
    (resolve_deps_nil _ _ _ _) rfl (by simp [tok])
  simpa [tok] using h

/-- C5: a dependency on a recipe that has one or more parameters makes resolution fail
with `DependencyHasParameters` carrying the depending recipe's name and the
dependency's name — both when the dependency is already present in the resolved table
(first conjunct) and when it is freshly removed from the unresolved table (second
conjunct). -/
theorem resolve_recipe_dependency_has_parameters (fres : Token → Nat → Except CompilationError Unit)
    (st : ResolverState) (stack : List String) (recipe : UnresolvedRecipe)
    (pre post : List Token) (d : Token) (l : List ResolvedRecipe) (st₁ : ResolverState)
    (hmemo : getResolved recipe.name st.resolved = none)
    (hdeps : recipe.dependencies = pre ++ d :: post)
    (hpre : resolve_deps fres st (stack ++ [recipe.name]) recipe.name pre = .ok (l, st₁)) :
    ((∃ r, getResolved d.lexeme st₁.resolved = some r ∧ r.parameters ≠ []) →
      resolve_recipe fres st stack recipe =
        .error (d.error (.DependencyHasParameters recipe.name d.lexeme))) ∧
    (getResolved d.lexeme st₁.resolved = none → d.lexeme ∉ stack ++ [recipe.name] →
      (∃ u rest, removeByName d.lexeme st₁.unresolved = some (u, rest) ∧
        u.parameters ≠ []) →
      resolve_recipe fres st stack recipe =
        .error (d.error (.DependencyHasParameters recipe.name d.lexeme))) := by
  constructor
  · rintro ⟨r, hg, hpar⟩
    rw [resolve_recipe_unfold, hmemo, hdeps, resolve_deps_append, hpre]
    dsimp only
    rw [resolve_deps_cons, hg]
    dsimp only
    have : r.parameters.isEmpty = false := by
      cases hc : r.parameters with
      | nil => exact absurd hc hpar
      | cons a as => rfl
    rw [this]
    rfl
  · rintro hg hstk ⟨u, rest, hrem, hpar⟩
    rw [resolve_recipe_unfold, hmemo, hdeps, resolve_deps_append, hpre]
    dsimp only
    rw [resolve_deps_cons, hg]
    dsimp only
    rw [if_neg hstk, hrem]
    dsimp only
    have : u.parameters.isEmpty = false := by
      cases hc : u.parameters with
      | nil => exact absurd hc hpar
      | cons a as => rfl
    rw [this]
    rfl

theorem resolve_recipe_dependency_has_parameters_witness :
    (resolve_recipe (fun _ _ => .ok ())
        ⟨[], [ResolvedRecipe.mk "b" [⟨tok "x", none⟩] [] []]⟩ []
        ⟨"a", [], [tok "b"], []⟩ =
      .error ((tok "b").error (.DependencyHasParameters "a" "b"))) ∧
    (resolve_recipe (fun _ _ => .ok ())
        ⟨[⟨"b", [⟨tok "x", none⟩], [], []⟩], []⟩ []
        ⟨"a", [], [tok "b"], []⟩ =
      .error ((tok "b").error (.DependencyHasParameters "a" "b"))) := by
  constructor
  · have h := resolve_recipe_dependency_has_parameters (fun _ _ => .ok ())
      ⟨[], [ResolvedRecipe.mk "b" [⟨tok "x", none⟩] [] []]⟩ []
      ⟨"a", [], [tok "b"], []⟩ [] [] (tok "b") []
      ⟨[], [ResolvedRecipe.mk "b" [⟨tok "x", none⟩] [] []]⟩
      rfl rfl (resolve_deps_nil _ _ _ _)
    exact h.1 ⟨ResolvedRecipe.mk "b" [⟨tok "x", none⟩] [] [], rfl,
      by simp [ResolvedRecipe.parameters]⟩
  · have h := resolve_recipe_dependency_has_parameters (fun _ _ => .ok ())
      ⟨[⟨"b", [⟨tok "x", none⟩], [], []⟩], []⟩ []
      ⟨"a", [], [tok "b"], []⟩ [] [] (tok "b") []
      ⟨[⟨"b", [⟨tok "x", none⟩], [], []⟩], []⟩
      rfl rfl (resolve_deps_nil _ _ _ _)
    exact h.2 rfl (by simp [tok]) ⟨⟨"b", [⟨tok "x", none⟩], [], []⟩, [], rfl, by simp⟩

/-- C6: a dependency token whose name is not in the resolved table, not on the current
DFS stack, and not in the unresolved table makes `resolve_recipe` fail with
`UnknownDependency` carrying the current recipe's name and the dependency's name. -/
theorem resolve_recipe_unknown_dependency (fres : Token → Nat → Except CompilationError Unit)
    (st : ResolverState) (stack : List String) (recipe : UnresolvedRecipe)
    (pre post : List Token) (d : Token) (l : List ResolvedRecipe) (st₁ : ResolverState)
    (hmemo : getResolved recipe.name st.resolved = none)
    (hdeps : recipe.dependencies = pre ++ d :: post)
    (hpre : resolve_deps fres st (stack ++ [recipe.name]) recipe.name pre = .ok (l, st₁))
    (hres : getResolved d.lexeme st₁.resolved = none)
    (hstk : d.lexeme ∉ stack ++ [recipe.name])
    (hrem : removeByName d.lexeme st₁.unresolved = none) :
    resolve_recipe fres st stack recipe =
      .error (d.error (.UnknownDependency recipe.name d.lexeme)) := by
  rw [resolve_recipe_unfold, hmemo, hdeps, resolve_deps_append, hpre]
  dsimp only
  rw [resolve_deps_cons, hres]
  dsimp only
  rw [if_neg hstk, hrem]

theorem resolve_recipe_unknown_dependency_witness :
    resolve_recipe (fun _ _ => .ok ()) ⟨[], []⟩ [] ⟨"a", [], [tok "b"], []⟩ =
      .error ((tok "b").error (.UnknownDependency "a" "b")) :=
  resolve_recipe_unknown_dependency (fun _ _ => .ok ()) ⟨[], []⟩ []
    ⟨"a", [], [tok "b"], []⟩ [] [] (tok "b") [] ⟨[], []⟩ rfl rfl
    (resolve_deps_nil _ _ _ _) rfl (by simp [tok]) rfl

/-!
## Ownership preservation through the DFS

The following lemmas establish, for every successful `resolve_recipe`/`resolve_deps`
call, how the two tables evolve: the unresolved table only loses entries, the resolved
table only gains entries (whose names come from the unresolved table, plus the recipe
being resolved itself exactly once), their combined size is conserved accordingly, and
name-disjointness of the two tables is maintained.
-/

@[simp] theorem uNames_mk (u : List UnresolvedRecipe) (r : List ResolvedRecipe) :
    (ResolverState.mk u r).uNames = u.map UnresolvedRecipe.name := rfl

@[simp] theorem rNames_mk (u : List UnresolvedRecipe) (r : List ResolvedRecipe) :
    (ResolverState.mk u r).rNames = r.map ResolvedRecipe.name := rfl

/-- Well-formedness of the two live tables: keys are distinct within each table and no
key occurs in both (spec §3, Invariants). -/
def StOK (st : ResolverState) : Prop :=
  st.uNames.Nodup ∧ st.rNames.Nodup ∧ ∀ x ∈ st.uNames, x ∉ st.rNames

/-- How a successful dependency-loop run transforms the state. -/
def DepsPost (st : ResolverState) (deps : List Token) (l : List ResolvedRecipe)
    (st' : ResolverState) : Prop :=
  StOK st' ∧ st'.unresolved.Sublist st.unresolved ∧
  (∃ δ, st'.resolved = st.resolved ++ δ ∧
    ∀ x ∈ δ.map ResolvedRecipe.name, x ∈ st.uNames) ∧
  st'.unresolved.length + st'.resolved.length =
    st.unresolved.length + st.resolved.length ∧
  l.map ResolvedRecipe.name = deps.map Token.lexeme

/-- How a successful `resolve_recipe` run (on a recipe already removed from both
tables) transforms the state. -/
def RecipePost (st : ResolverState) (recipe : UnresolvedRecipe) (rr : ResolvedRecipe)
    (st' : ResolverState) : Prop :=
  StOK st' ∧ rr.name = recipe.name ∧ st'.unresolved.Sublist st.unresolved ∧
  (∃ δ, st'.resolved = st.resolved ++ δ ∧
    (∀ x ∈ δ.map ResolvedRecipe.name, x = recipe.name ∨ x ∈ st.uNames) ∧
    recipe.name ∈ δ.map ResolvedRecipe.name) ∧
  st'.unresolved.length + st'.resolved.length =
    st.unresolved.length + st.resolved.length + 1

theorem StOK_of_remove {st : ResolverState} {name : String} {dep : UnresolvedRecipe}
    {rest : List UnresolvedRecipe} (hst : StOK st)
    (hrem : removeByName name st.unresolved = some (dep, rest)) :
    StOK ⟨rest, st.resolved⟩ := by
  obtain ⟨hu, hr, hd⟩ := hst
  have hsub : rest.Sublist st.unresolved := removeByName_sublist hrem
  refine ⟨?_, hr, ?_⟩
  · exact (hsub.map UnresolvedRecipe.name).nodup hu
  · intro x hx
    exact hd x ((hsub.map UnresolvedRecipe.name).mem hx)

theorem preserveAux (fres : Token → Nat → Except CompilationError Unit) : ∀ n : Nat,
    (∀ st stack recipeName deps l st', st.unresolved.length ≤ n →
      resolve_deps fres st stack recipeName deps = .ok (l, st') → StOK st →
      DepsPost st deps l st') ∧
    (∀ st stack recipe rr st', st.unresolved.length ≤ n →
      resolve_recipe fres st stack recipe = .ok (rr, st') → StOK st →
      recipe.name ∉ st.uNames → recipe.name ∉ st.rNames →
      RecipePost st recipe rr st') := by
  intro n
  induction n using Nat.strong_induction_on with
  | _ n IH =>
  have hD : ∀ st stack recipeName deps l st', st.unresolved.length ≤ n →
      resolve_deps fres st stack recipeName deps = .ok (l, st') → StOK st →
      DepsPost st deps l st' := by
    intro st stack recipeName deps
    induction deps generalizing st with
    | nil =>
      intro l st' hlen h hst
      rw [resolve_deps_nil] at h
      simp only [Except.ok.injEq, Prod.mk.injEq] at h
      obtain ⟨h1, h2⟩ := h
      subst h1 h2
      exact ⟨hst, List.Sublist.refl _, ⟨[], by simp, by simp⟩, rfl, by simp⟩
    | cons d ds ihds =>
      intro l st' hlen h hst
      rw [resolve_deps_cons] at h
      cases hg : getResolved d.lexeme st.resolved with
      | some resolved =>
        rw [hg] at h
        dsimp only at h
        by_cases hp : resolved.parameters.isEmpty
        · rw [hp] at h
          rw [if_pos rfl] at h
          cases hds : resolve_deps fres st stack recipeName ds with
          | error e => rw [hds] at h; cases h
          | ok p =>
            rcases p with ⟨l₀, st₀⟩
            rw [hds] at h
            simp only [Except.ok.injEq, Prod.mk.injEq] at h
            obtain ⟨h1, h2⟩ := h
            subst h1 h2
            obtain ⟨hok, hsub, hδ, hcnt, hnames⟩ := ihds st l₀ st₀ hlen hds hst
            refine ⟨hok, hsub, hδ, hcnt, ?_⟩
            simp only [List.map_cons, hnames, (getResolved_some hg).2]
        · simp [hp] at h
      | none =>
        rw [hg] at h
        dsimp only at h
        by_cases hs : d.lexeme ∈ stack
        · rw [if_pos hs] at h; cases h
        · rw [if_neg hs] at h
          cases hrem : removeByName d.lexeme st.unresolved with
          | none => rw [hrem] at h; cases h
          | some p =>
            rcases p with ⟨dep, rest⟩
            rw [hrem] at h
            dsimp only at h
            by_cases hp : dep.parameters.isEmpty
            · rw [hp, if_pos rfl] at h
              cases hrr : resolve_recipe fres ⟨rest, st.resolved⟩ stack dep with
              | error e => rw [hrr] at h; cases h
              | ok q =>
                rcases q with ⟨rr, st₁⟩
                rw [hrr] at h
                dsimp only at h
                cases hds : resolve_deps fres st₁ stack recipeName ds with
                | error e => rw [hds] at h; cases h
                | ok p' =>
                  rcases p' with ⟨l₀, st₂⟩
                  rw [hds] at h
                  simp only [Except.ok.injEq, Prod.mk.injEq] at h
                  obtain ⟨h1, h2⟩ := h
                  subst h1 h2
                  -- facts about the removal
                  have hdepname : dep.name = d.lexeme := (removeByName_spec hrem).1
                  have hrest : rest.length + 1 = st.unresolved.length :=
                    removeByName_length hrem
                  have hrsub : rest.Sublist st.unresolved := removeByName_sublist hrem
                  have hstr : StOK ⟨rest, st.resolved⟩ := StOK_of_remove hst hrem
                  have hnu : dep.name ∉ (⟨rest, st.resolved⟩ : ResolverState).uNames := by
                    simp only [uNames_mk]
                    rw [hdepname]
                    exact removeByName_not_mem_rest hst.1 hrem
                  have hnr : dep.name ∉ (⟨rest, st.resolved⟩ : ResolverState).rNames := by
                    simp only [rNames_mk]
                    rw [hdepname]
                    exact getResolved_eq_none.mp hg
                  have hlt : rest.length < n := by omega
                  obtain ⟨hok₁, hname₁, hsub₁, ⟨δ₁, hδ₁, hδ₁n, hδ₁m⟩, hcnt₁⟩ :=
                    (IH rest.length hlt).2 ⟨rest, st.resolved⟩ stack dep rr st₁
                      (by simp) hrr hstr hnu hnr
                  have hlen₁ : st₁.unresolved.length ≤ n := by
                    have := hsub₁.length_le
                    simp only at this
                    omega
                  obtain ⟨hok₂, hsub₂, ⟨δ₂, hδ₂, hδ₂n⟩, hcnt₂, hnames₂⟩ :=
                    ihds st₁ l₀ st₂ hlen₁ hds hok₁
                  -- assemble
                  have hdmem : dep.name ∈ st.uNames :=
                    List.mem_map_of_mem UnresolvedRecipe.name (removeByName_mem hrem)
                  have hrestsub : ∀ x ∈ (rest.map UnresolvedRecipe.name), x ∈ st.uNames :=
                    fun x hx => (hrsub.map UnresolvedRecipe.name).mem hx
                  refine ⟨hok₂, ?_, ?_, ?_, ?_⟩
                  · exact (hsub₂.trans (by simpa using hsub₁)).trans hrsub
                  · refine ⟨δ₁ ++ δ₂, ?_, ?_⟩
                    · rw [hδ₂, hδ₁]
                      simp
                    · intro x hx
                      rw [List.map_append, List.mem_append] at hx
                      have hsubn : List.Sublist (st₁.unresolved.map UnresolvedRecipe.name)
                          (rest.map UnresolvedRecipe.name) := by
                        simpa using hsub₁.map UnresolvedRecipe.name
                      rcases hx with hx | hx
                      · rcases hδ₁n x hx with heq | hmem
                        · rw [heq]
                          exact hdmem
                        · exact hrestsub x (by simpa using hmem)
                      · have hx₁ : x ∈ st₁.uNames := hδ₂n x hx
                        exact hrestsub x (hsubn.subset hx₁)
                  · simp only at hcnt₁ hcnt₂ ⊢
                    omega
                  · simp only [List.map_cons, hnames₂, hname₁, hdepname]
            · simp [hp] at h
  have hR : ∀ st stack recipe rr st', st.unresolved.length ≤ n →
      resolve_recipe fres st stack recipe = .ok (rr, st') → StOK st →
      recipe.name ∉ st.uNames → recipe.name ∉ st.rNames →
      RecipePost st recipe rr st' := by
    intro st stack recipe rr st' hlen h hst hnu hnr
    rw [resolve_recipe_unfold] at h
    have hg : getResolved recipe.name st.resolved = none := getResolved_eq_none.mpr hnr
    rw [hg] at h
    dsimp only at h
    cases hds : resolve_deps fres st (stack ++ [recipe.name]) recipe.name
        recipe.dependencies with
    | error e => rw [hds] at h; cases h
    | ok p =>
      rcases p with ⟨depsl, st''⟩
      rw [hds] at h
      simp only [Except.ok.injEq, Prod.mk.injEq] at h
      obtain ⟨h1, h2⟩ := h
      subst h1
      obtain ⟨⟨hu'', hr'', hd''⟩, hsub'', ⟨δ, hδ, hδn⟩, hcnt'', hnames''⟩ :=
        hD st (stack ++ [recipe.name]) recipe.name recipe.dependencies depsl st''
          hlen hds hst
    -- the new resolved recipe
      have hnew : recipe.name ∉ st''.rNames := by
        unfold ResolverState.rNames at hr'' ⊢
        rw [hδ]
        rw [List.map_append, List.mem_append]
        rintro (hx | hx)
        · exact hnr hx
        · rcases hδn _ hx with hmem
          exact hnu hmem
      have hsubnames : ∀ x ∈ st''.uNames, x ∈ st.uNames :=
        fun x hx => ((hsub''.map UnresolvedRecipe.name).mem hx)
      subst h2
      refine ⟨⟨hu'', ?_, ?_⟩, rfl, hsub'', ⟨δ ++ [ResolvedRecipe.mk recipe.name
        recipe.parameters depsl recipe.body], ?_, ?_, ?_⟩, ?_⟩
      · simp only [rNames_mk, List.map_append, List.map_cons, List.map_nil]
        rw [List.nodup_append]
        refine ⟨hr'', List.nodup_singleton _, ?_⟩
        intro x hx hx'
        simp only [List.mem_singleton, ResolvedRecipe.name] at hx'
        subst hx'
        exact hnew hx
      · intro x hx
        have hxu : x ∈ st''.uNames := hx
        intro hx'
        have hx'' : x ∈ (st''.resolved ++ [ResolvedRecipe.mk recipe.name
            recipe.parameters depsl recipe.body]).map ResolvedRecipe.name := hx'
        rw [List.map_append, List.mem_append] at hx''
        rcases hx'' with hx'' | hx''
        · exact hd'' x hxu hx''
        · simp only [List.map_cons, List.map_nil, List.mem_singleton,
            ResolvedRecipe.name] at hx''
          subst hx''
          exact hnu (hsubnames _ hxu)
      · simp only
        rw [hδ]
        simp
      · intro x hx
        simp only [List.map_append, List.map_cons, List.map_nil, List.mem_append,
          List.mem_singleton] at hx
        rcases hx with hx | hx
        · exact Or.inr (hδn x hx)
        · simp only [ResolvedRecipe.name] at hx
          exact Or.inl hx
      · simp [ResolvedRecipe.name]
      · simp only [List.length_append, List.length_cons, List.length_nil] at hcnt'' ⊢
        omega
  exact ⟨hD, hR⟩

theorem resolve_recipe_preserve (fres : Token → Nat → Except CompilationError Unit)
    {st : ResolverState} {stack : List String} {recipe : UnresolvedRecipe}
    {rr : ResolvedRecipe} {st' : ResolverState}
    (h : resolve_recipe fres st stack recipe = .ok (rr, st')) (hst : StOK st)
    (hnu : recipe.name ∉ st.uNames) (hnr : recipe.name ∉ st.rNames) :
    RecipePost st recipe rr st' :=
  (preserveAux fres st.unresolved.length).2 st stack recipe rr st'
    (Nat.le_refl _) h hst hnu hnr

theorem resolve_deps_preserve (fres : Token → Nat → Except CompilationError Unit)
    {st : ResolverState} {stack : List String} {recipeName : String} {deps : List Token}
    {l : List ResolvedRecipe} {st' : ResolverState}
    (h : resolve_deps fres st stack recipeName deps = .ok (l, st')) (hst : StOK st) :
    DepsPost st deps l st' :=
  (preserveAux fres st.unresolved.length).1 st stack recipeName deps l st'
    (Nat.le_refl _) h hst

/-- C4: each recipe name lives in at most one of the two tables at every step.
`resolve_recipe` is always invoked on a recipe that its caller has just removed from
the unresolved table (the worklist pop at lines 22-23, the dependency removal at line
109), which the hypotheses `hnu`/`hnr` express; on success, key-uniqueness of each
table and name-disjointness between them are preserved, the recipe's name is absent
from the unresolved table, and it has been inserted into the resolved table exactly
once (count 1), never leaving a copy in both tables. -/
theorem resolve_recipe_table_ownership (fres : Token → Nat → Except CompilationError Unit)
    (st : ResolverState) (stack : List String) (recipe : UnresolvedRecipe)
    (rr : ResolvedRecipe) (st' : ResolverState)
    (h : resolve_recipe fres st stack recipe = .ok (rr, st'))
    (hst : StOK st) (hnu : recipe.name ∉ st.uNames) (hnr : recipe.name ∉ st.rNames) :
    StOK st' ∧ rr.name = recipe.name ∧ recipe.name ∉ st'.uNames ∧
      st'.rNames.count recipe.name = 1 := by
  obtain ⟨hok, hname, hsub, ⟨δ, hδ, hδn, hδm⟩, hcnt⟩ :=
    resolve_recipe_preserve fres h hst hnu hnr
  refine ⟨hok, hname, ?_, ?_⟩
  · intro hx
    exact hnu ((hsub.map UnresolvedRecipe.name).mem hx)
  · have hmem : recipe.name ∈ st'.rNames := by
      unfold ResolverState.rNames
      rw [hδ, List.map_append, List.mem_append]
      exact Or.inr hδm
    exact List.count_eq_one_of_mem hok.2.1 hmem

theorem resolve_recipe_table_ownership_witness :
    StOK (⟨[], [ResolvedRecipe.mk "a" [] [] []]⟩ : ResolverState) ∧
    (ResolvedRecipe.mk "a" [] [] []).name = (⟨"a", [], [], []⟩ : UnresolvedRecipe).name ∧
    (⟨"a", [], [], []⟩ : UnresolvedRecipe).name ∉
      (⟨[], [ResolvedRecipe.mk "a" [] [] []]⟩ : ResolverState).uNames ∧
    (⟨[], [ResolvedRecipe.mk "a" [] [] []]⟩ : ResolverState).rNames.count
      (⟨"a", [], [], []⟩ : UnresolvedRecipe).name = 1 :=
  resolve_recipe_table_ownership (fun _ _ => .ok ()) ⟨[], []⟩ [] ⟨"a", [], [], []⟩
    (ResolvedRecipe.mk "a" [] [] []) ⟨[], [ResolvedRecipe.mk "a" [] [] []]⟩
    (by rw [resolve_recipe_unfold]
        have h1 : getResolved (⟨"a", [], [], []⟩ : UnresolvedRecipe).name
            ((⟨[], []⟩ : ResolverState)).resolved = none := rfl
        rw [h1]
        have h2 := resolve_deps_nil (fun _ _ => .ok ()) (⟨[], []⟩ : ResolverState)
          ([] ++ [(⟨"a", [], [], []⟩ : UnresolvedRecipe).name])
          (⟨"a", [], [], []⟩ : UnresolvedRecipe).name
        rw [show (⟨"a", [], [], []⟩ : UnresolvedRecipe).dependencies = [] from rfl, h2]
        rfl)
    (by refine ⟨List.nodup_nil, List.nodup_nil, ?_⟩; intro x hx; cases hx)
    (by simp) (by simp)

/-!
## Total correctness on well-formed inputs

For an input table with distinct recipe names whose dependency graph is closed (every
dependency names a recipe of the table, with zero parameters) and acyclic — witnessed,
as is standard for finite graphs, by a rank function strictly decreasing along
dependency edges — dependency resolution succeeds; if moreover every referenced
variable and function is defined, the whole pass succeeds, preserving recipe count and
per-recipe dependency lists.
-/

/-- The recipe `rr` is a faithfully resolved form of a recipe of the table `T`: same
name, parameters and body, and dependency names in the declared order. -/
def MatchesT (T : List UnresolvedRecipe) (rr : ResolvedRecipe) : Prop :=
  ∃ ur ∈ T, rr.name = ur.name ∧ rr.parameters = ur.parameters ∧ rr.body = ur.body ∧
    rr.dependencies.map ResolvedRecipe.name = ur.dependencies.map Token.lexeme

/-- Well-formedness of the input table `T` under the rank function `ρ`: distinct
names, dependency-closedness with zero-parameter dependencies, and acyclicity. -/
structure WfT (T : List UnresolvedRecipe) (ρ : String → Nat) : Prop where
  nodupNames : (T.map UnresolvedRecipe.name).Nodup
  depsClosed : ∀ r ∈ T, ∀ d ∈ r.dependencies,
    ∃ r' ∈ T, r'.name = d.lexeme ∧ r'.parameters = []
  rank : ∀ r ∈ T, ∀ d ∈ r.dependencies, ρ d.lexeme < ρ r.name

/-- The resolution invariant relative to the input table `T` and the current DFS path
`stack`: the unresolved table holds recipes of `T` with distinct names, the resolved
table holds faithfully resolved recipes of `T` with distinct names, the two tables are
name-disjoint, every name of `T` is accounted for by one of the tables or the stack,
and stacked names are in neither table. -/
structure InvT (T : List UnresolvedRecipe) (st : ResolverState) (stack : List String) :
    Prop where
  sub : ∀ u ∈ st.unresolved, u ∈ T
  undup : st.uNames.Nodup
  rndup : st.rNames.Nodup
  disj : ∀ x ∈ st.uNames, x ∉ st.rNames
  resolvedMatch : ∀ rr ∈ st.resolved, MatchesT T rr
  cover : ∀ x ∈ T.map UnresolvedRecipe.name, x ∈ st.uNames ∨ x ∈ st.rNames ∨ x ∈ stack
  stackdisj : ∀ x ∈ stack, x ∉ st.uNames ∧ x ∉ st.rNames

theorem InvT.stOK {T : List UnresolvedRecipe} {st : ResolverState} {stack : List String}
    (h : InvT T st stack) : StOK st :=
  ⟨h.undup, h.rndup, h.disj⟩

/-- With distinct names, two table recipes with the same name are the same recipe. -/
theorem eq_of_name_eq {T : List UnresolvedRecipe}
    (hnd : (T.map UnresolvedRecipe.name).Nodup) {a b : UnresolvedRecipe}
    (ha : a ∈ T) (hb : b ∈ T) (hn : a.name = b.name) : a = b :=
  List.inj_on_of_nodup_map hnd ha hb hn

/-- The names of a table split by a removal: every name is the removed one or
survives. -/
theorem removeByName_names_cases {name : String} {l rest : List UnresolvedRecipe}
    {u : UnresolvedRecipe} (h : removeByName name l = some (u, rest)) :
    ∀ x ∈ l.map UnresolvedRecipe.name,
      x = u.name ∨ x ∈ rest.map UnresolvedRecipe.name := by
  rcases removeByName_spec h with ⟨hname, l₁, l₂, hsplit, hrest⟩
  subst hsplit hrest
  intro x hx
  simp only [List.map_append, List.map_cons, List.mem_append, List.mem_cons] at hx ⊢
  tauto

/-- Success of the defaults validator when every default only references defined
functions and assignment keys. -/
theorem validateDefaults_ok (fres : Token → Nat → Except CompilationError Unit)
    (assignments : List String) (ps : List Parameter)
    (h : ∀ p ∈ ps, ∀ e ∈ p.default, (∀ fc ∈ e.functions, fres fc.1 fc.2 = .ok ()) ∧
      ∀ v ∈ e.vars, v.lexeme ∈ assignments) :
    validateDefaults fres assignments ps = .ok () := by
  induction ps with
  | nil => rfl
  | cons p ps ih =>
    rw [validateDefaults]
    cases hd : p.default with
    | none => exact ih fun p hp => h p (List.mem_cons_of_mem _ hp)
    | some e =>
      obtain ⟨hf, hv⟩ := h p (List.mem_cons_self _ _) e (by rw [hd]; rfl)
      dsimp only
      rw [(checkFunctions_ok_iff fres e.functions).mpr hf]
      dsimp only
      rw [(checkVariables_ok_iff assignments [] e.vars).mpr
        fun v hv' => Or.inl (hv v hv')]
      exact ih fun p hp => h p (List.mem_cons_of_mem _ hp)

/-- Success of the fragment validator when every interpolation only references defined
functions and in-scope variables. -/
theorem validateFragments_ok (fres : Token → Nat → Except CompilationError Unit)
    (assignments : List String) (parameters : List Parameter) (frags : List Fragment)
    (h : ∀ e, Fragment.interpolation e ∈ frags →
      (∀ fc ∈ e.functions, fres fc.1 fc.2 = .ok ()) ∧
      ∀ v ∈ e.vars, InScope assignments parameters v) :
    validateFragments fres assignments parameters frags = .ok () := by
  induction frags with
  | nil => rfl
  | cons f fs ih =>
    cases f with
    | text s =>
      rw [validateFragments]
      exact ih fun e he => h e (List.mem_cons_of_mem _ he)
    | interpolation e =>
      obtain ⟨hf, hv⟩ := h e (List.mem_cons_self _ _)
      rw [validateFragments, (checkFunctions_ok_iff fres e.functions).mpr hf]
      dsimp only
      rw [(checkVariables_ok_iff assignments parameters e.vars).mpr hv]
      exact ih fun e he => h e (List.mem_cons_of_mem _ he)

theorem validateLines_ok (fres : Token → Nat → Except CompilationError Unit)
    (assignments : List String) (parameters : List Parameter) (lines : List Line)
    (h : ∀ line ∈ lines, ∀ e, Fragment.interpolation e ∈ line.fragments →
      (∀ fc ∈ e.functions, fres fc.1 fc.2 = .ok ()) ∧
      ∀ v ∈ e.vars, InScope assignments parameters v) :
    validateLines fres assignments parameters lines = .ok () := by
  induction lines with
  | nil => rfl
  | cons line rest ih =>
    rw [validateLines, validateFragments_ok fres assignments parameters line.fragments
      (h line (List.mem_cons_self _ _))]
    dsimp only
    exact ih fun l hl => h l (List.mem_cons_of_mem _ hl)

theorem validateRecipes_ok (fres : Token → Nat → Except CompilationError Unit)
    (assignments : List String) (rs : List ResolvedRecipe)
    (h : ∀ rr ∈ rs,
      (∀ p ∈ rr.parameters, ∀ e ∈ p.default,
        (∀ fc ∈ e.functions, fres fc.1 fc.2 = .ok ()) ∧
        ∀ v ∈ e.vars, v.lexeme ∈ assignments) ∧
      (∀ line ∈ rr.body, ∀ e, Fragment.interpolation e ∈ line.fragments →
        (∀ fc ∈ e.functions, fres fc.1 fc.2 = .ok ()) ∧
        ∀ v ∈ e.vars, InScope assignments rr.parameters v)) :
    validateRecipes fres assignments rs = .ok () := by
  induction rs with
  | nil => rfl
  | cons rr rest ih =>
    obtain ⟨hdef, hbody⟩ := h rr (List.mem_cons_self _ _)
    rw [validateRecipes, validateDefaults_ok fres assignments rr.parameters hdef]
    dsimp only
    rw [validateLines_ok fres assignments rr.parameters rr.body hbody]
    exact ih fun r hr => h r (List.mem_cons_of_mem _ hr)

theorem successAux (fres : Token → Nat → Except CompilationError Unit)
    (T : List UnresolvedRecipe) (ρ : String → Nat) (hwf : WfT T ρ) : ∀ n : Nat,
    (∀ st stack recipeName deps, st.unresolved.length ≤ n → InvT T st stack →
      (∀ d ∈ deps, ∃ r' ∈ T, r'.name = d.lexeme ∧ r'.parameters = []) →
      (∀ d ∈ deps, ∀ x ∈ stack, ρ d.lexeme < ρ x) →
      ∃ l st', resolve_deps fres st stack recipeName deps = .ok (l, st') ∧
        InvT T st' stack) ∧
    (∀ st stack recipe, st.unresolved.length ≤ n → recipe ∈ T →
      InvT T st (stack ++ [recipe.name]) → recipe.name ∉ stack →
      (∀ x ∈ stack, ρ recipe.name ≤ ρ x) →
      ∃ rr st', resolve_recipe fres st stack recipe = .ok (rr, st') ∧
        InvT T st' stack ∧ rr.name = recipe.name) := by
  intro n
  induction n using Nat.strong_induction_on with
  | _ n IH =>
  have hD : ∀ st stack recipeName deps, st.unresolved.length ≤ n → InvT T st stack →
      (∀ d ∈ deps, ∃ r' ∈ T, r'.name = d.lexeme ∧ r'.parameters = []) →
      (∀ d ∈ deps, ∀ x ∈ stack, ρ d.lexeme < ρ x) →
      ∃ l st', resolve_deps fres st stack recipeName deps = .ok (l, st') ∧
        InvT T st' stack := by
    intro st stack recipeName deps
    induction deps generalizing st with
    | nil =>
      intro _ hinv _ _
      exact ⟨[], st, resolve_deps_nil fres st stack recipeName, hinv⟩
    | cons d ds ihds =>
      intro hlen hinv hcl hrk
      obtain ⟨r', hr'T, hr'name, hr'par⟩ := hcl d (List.mem_cons_self _ _)
      cases hg : getResolved d.lexeme st.resolved with
      | some resolved =>
        obtain ⟨hresmem, hresname⟩ := getResolved_some hg
        obtain ⟨ur, hurT, hn1, hn2, hn3, hn4⟩ := hinv.resolvedMatch resolved hresmem
        have hur : ur = r' := eq_of_name_eq hwf.nodupNames hurT hr'T
          (by rw [← hn1, hresname, hr'name])
        have hpe : resolved.parameters.isEmpty = true := by
          rw [hn2, hur, hr'par]; rfl
        obtain ⟨l₀, st₀, hds, hinv₀⟩ := ihds st hlen hinv
          (fun d' hd' => hcl d' (List.mem_cons_of_mem _ hd'))
          (fun d' hd' => hrk d' (List.mem_cons_of_mem _ hd'))
        refine ⟨resolved :: l₀, st₀, ?_, hinv₀⟩
        rw [resolve_deps_cons, hg]
        dsimp only
        rw [hpe, if_pos rfl, hds]
      | none =>
        have hstk : d.lexeme ∉ stack := by
          intro hmem
          exact absurd (hrk d (List.mem_cons_self _ _) _ hmem) (lt_irrefl _)
        have hTn : d.lexeme ∈ T.map UnresolvedRecipe.name := by
          rw [← hr'name]
          exact List.mem_map_of_mem _ hr'T
        have hnotr : d.lexeme ∉ st.rNames := getResolved_eq_none.mp hg
        have hmemu : d.lexeme ∈ st.uNames := by
          rcases hinv.cover _ hTn with h | h | h
          · exact h
          · exact absurd h hnotr
          · exact absurd h hstk
        cases hrem : removeByName d.lexeme st.unresolved with
        | none => exact absurd hmemu (removeByName_eq_none.mp hrem)
        | some p =>
          rcases p with ⟨dep, rest⟩
          have hdepname : dep.name = d.lexeme := (removeByName_spec hrem).1
          have hdepT : dep ∈ T := hinv.sub dep (removeByName_mem hrem)
          have hdep' : dep = r' := eq_of_name_eq hwf.nodupNames hdepT hr'T
            (by rw [hdepname, hr'name])
          have hpe : dep.parameters.isEmpty = true := by rw [hdep', hr'par]; rfl
          have hrest : rest.length + 1 = st.unresolved.length := removeByName_length hrem
          have hrsub : rest.Sublist st.unresolved := removeByName_sublist hrem
          have hrnsub : List.Sublist (rest.map UnresolvedRecipe.name)
              (st.unresolved.map UnresolvedRecipe.name) :=
            hrsub.map UnresolvedRecipe.name
          have hinvrec : InvT T ⟨rest, st.resolved⟩ (stack ++ [dep.name]) := by
            refine ⟨?_, ?_, hinv.rndup, ?_, hinv.resolvedMatch, ?_, ?_⟩
            · intro u hu
              exact hinv.sub u (hrsub.mem hu)
            · exact hrnsub.nodup hinv.undup
            · intro x hx
              exact hinv.disj x (hrnsub.mem hx)
            · intro x hx
              rcases hinv.cover x hx with h | h | h
              · rcases removeByName_names_cases hrem x h with heq | hmem
                · right; right; simp [heq]
                · left; exact hmem
              · right; left; exact h
              · right; right; exact List.mem_append_left _ h
            · intro x hx
              rcases List.mem_append.mp hx with hx | hx
              · obtain ⟨h1, h2⟩ := hinv.stackdisj x hx
                exact ⟨fun hm => h1 (hrnsub.mem hm), h2⟩
              · rw [List.mem_singleton] at hx
                subst hx
                constructor
                · show dep.name ∉ rest.map UnresolvedRecipe.name
                  rw [hdepname]
                  exact removeByName_not_mem_rest hinv.undup hrem
                · show dep.name ∉ st.rNames
                  rw [hdepname]
                  exact hnotr
          have hstk' : dep.name ∉ stack := by rw [hdepname]; exact hstk
          have hrank' : ∀ x ∈ stack, ρ dep.name ≤ ρ x := by
            intro x hx
            rw [hdepname]
            exact le_of_lt (hrk d (List.mem_cons_self _ _) x hx)
          have hlt : rest.length < n := by omega
          obtain ⟨rr, st₁, hrr, hinv₁, hrrname⟩ := (IH rest.length hlt).2
            ⟨rest, st.resolved⟩ stack dep (by simp) hdepT hinvrec hstk' hrank'
          have hlen₁ : st₁.unresolved.length ≤ n := by
            have := resolve_recipe_unresolved_le fres hrr
            simp only at this
            omega
          obtain ⟨l₀, st₂, hds, hinv₂⟩ := ihds st₁ hlen₁ hinv₁
            (fun d' hd' => hcl d' (List.mem_cons_of_mem _ hd'))
            (fun d' hd' => hrk d' (List.mem_cons_of_mem _ hd'))
          refine ⟨rr :: l₀, st₂, ?_, hinv₂⟩
          rw [resolve_deps_cons, hg]
          dsimp only
          rw [if_neg hstk, hrem]
          dsimp only
          rw [hpe, if_pos rfl, hrr]
          dsimp only
          rw [hds]
  have hR : ∀ st stack recipe, st.unresolved.length ≤ n → recipe ∈ T →
      InvT T st (stack ++ [recipe.name]) → recipe.name ∉ stack →
      (∀ x ∈ stack, ρ recipe.name ≤ ρ x) →
      ∃ rr st', resolve_recipe fres st stack recipe = .ok (rr, st') ∧
        InvT T st' stack ∧ rr.name = recipe.name := by
    intro st stack recipe hlen hT hinv hstk hrank
    have hself : recipe.name ∈ stack ++ [recipe.name] :=
      List.mem_append_right _ (List.mem_singleton_self _)
    have hnr : recipe.name ∉ st.rNames := (hinv.stackdisj recipe.name hself).2
    have hnu : recipe.name ∉ st.uNames := (hinv.stackdisj recipe.name hself).1
    have hg : getResolved recipe.name st.resolved = none := getResolved_eq_none.mpr hnr
    obtain ⟨depsl, st'', hds, hinv''⟩ := hD st (stack ++ [recipe.name]) recipe.name
      recipe.dependencies hlen hinv (hwf.depsClosed recipe hT)
      (fun d hd x hx => by
        rcases List.mem_append.mp hx with hx | hx
        · exact lt_of_lt_of_le (hwf.rank recipe hT d hd) (hrank x hx)
        · rw [List.mem_singleton] at hx
          subst hx
          exact hwf.rank recipe hT d hd)
    have hnames : depsl.map ResolvedRecipe.name =
        recipe.dependencies.map Token.lexeme :=
      (resolve_deps_preserve fres hds hinv.stOK).2.2.2.2
    have hnew : recipe.name ∉ st''.rNames := (hinv''.stackdisj recipe.name hself).2
    have hnewu : recipe.name ∉ st''.uNames := (hinv''.stackdisj recipe.name hself).1
    refine ⟨ResolvedRecipe.mk recipe.name recipe.parameters depsl recipe.body,
      ⟨st''.unresolved, st''.resolved ++
        [ResolvedRecipe.mk recipe.name recipe.parameters depsl recipe.body]⟩,
      ?_, ?_, rfl⟩
    · rw [resolve_recipe_unfold, hg]
      dsimp only
      rw [hds]
    · refine ⟨hinv''.sub, hinv''.undup, ?_, ?_, ?_, ?_, ?_⟩
      · show ((st''.resolved ++ [ResolvedRecipe.mk recipe.name recipe.parameters depsl
          recipe.body]).map ResolvedRecipe.name).Nodup
        rw [List.map_append, List.nodup_append]
        refine ⟨hinv''.rndup, List.nodup_singleton _, ?_⟩
        intro x hx hx'
        simp only [List.map_cons, List.map_nil, List.mem_singleton,
          ResolvedRecipe.name] at hx'
        subst hx'
        exact hnew hx
      · intro x hx
        intro hx'
        have hx'' : x ∈ (st''.resolved ++ [ResolvedRecipe.mk recipe.name
            recipe.parameters depsl recipe.body]).map ResolvedRecipe.name := hx'
        rw [List.map_append, List.mem_append] at hx''
        rcases hx'' with hx'' | hx''
        · exact hinv''.disj x hx hx''
        · simp only [List.map_cons, List.map_nil, List.mem_singleton,
            ResolvedRecipe.name] at hx''
          subst hx''
          exact hnewu hx
      · intro rr hrr
        rcases List.mem_append.mp hrr with hrr | hrr
        · exact hinv''.resolvedMatch rr hrr
        · rw [List.mem_singleton] at hrr
          subst hrr
          exact ⟨recipe, hT, rfl, rfl, rfl, hnames⟩
      · intro x hx
        rcases hinv''.cover x hx with h | h | h
        · exact Or.inl h
        · refine Or.inr (Or.inl ?_)
          show x ∈ (st''.resolved ++ [ResolvedRecipe.mk recipe.name recipe.parameters
            depsl recipe.body]).map ResolvedRecipe.name
          rw [List.map_append, List.mem_append]
          exact Or.inl h
        · rcases List.mem_append.mp h with h | h
          · exact Or.inr (Or.inr h)
          · rw [List.mem_singleton] at h
            subst h
            refine Or.inr (Or.inl ?_)
            show recipe.name ∈ (st''.resolved ++ [ResolvedRecipe.mk recipe.name
              recipe.parameters depsl recipe.body]).map ResolvedRecipe.name
            rw [List.map_append, List.mem_append]
            right
            simp [ResolvedRecipe.name]
      · intro x hx
        obtain ⟨h1, h2⟩ := hinv''.stackdisj x (List.mem_append_left _ hx)
        refine ⟨h1, ?_⟩
        intro hx'
        have hx'' : x ∈ (st''.resolved ++ [ResolvedRecipe.mk recipe.name
            recipe.parameters depsl recipe.body]).map ResolvedRecipe.name := hx'
        rw [List.map_append, List.mem_append] at hx''
        rcases hx'' with hx'' | hx''
        · exact h2 hx''
        · simp only [List.map_cons, List.map_nil, List.mem_singleton,
            ResolvedRecipe.name] at hx''
          subst hx''
          exact hstk hx
  exact ⟨hD, hR⟩

theorem resolve_recipe_success (fres : Token → Nat → Except CompilationError Unit)
    (T : List UnresolvedRecipe) (ρ : String → Nat) (hwf : WfT T ρ)
    {st : ResolverState} {stack : List String} {recipe : UnresolvedRecipe}
    (hT : recipe ∈ T) (hinv : InvT T st (stack ++ [recipe.name]))
    (hstk : recipe.name ∉ stack) (hrank : ∀ x ∈ stack, ρ recipe.name ≤ ρ x) :
    ∃ rr st', resolve_recipe fres st stack recipe = .ok (rr, st') ∧
      InvT T st' stack ∧ rr.name = recipe.name :=
  (successAux fres T ρ hwf st.unresolved.length).2 st stack recipe (Nat.le_refl _)
    hT hinv hstk hrank

theorem resolveLoop_success (fres : Token → Nat → Except CompilationError Unit)
    (T : List UnresolvedRecipe) (ρ : String → Nat) (hwf : WfT T ρ) :
    ∀ (n : Nat) (st : ResolverState), st.unresolved.length ≤ n → InvT T st [] →
    ∃ stF, resolveLoop fres st = .ok stF ∧ stF.unresolved = [] ∧ InvT T stF [] ∧
      stF.resolved.length = st.unresolved.length + st.resolved.length := by
  intro n
  induction n with
  | zero =>
    intro st hlen hinv
    obtain ⟨u, res⟩ := st
    have hu : u = [] := List.eq_nil_of_length_eq_zero (Nat.le_zero.mp hlen)
    subst hu
    exact ⟨⟨[], res⟩, resolveLoop_nil fres res, rfl, hinv, by simp⟩
  | succ n ih =>
    intro st hlen hinv
    obtain ⟨u, res⟩ := st
    cases u with
    | nil => exact ⟨⟨[], res⟩, resolveLoop_nil fres res, rfl, hinv, by simp⟩
    | cons r rest =>
      have hrT : r ∈ T := hinv.sub r (List.mem_cons_self _ _)
      have hundup := hinv.undup
      simp only [uNames_mk, List.map_cons, List.nodup_cons] at hundup
      have hrn_rest : r.name ∉ rest.map UnresolvedRecipe.name := hundup.1
      have hrn_res : r.name ∉ res.map ResolvedRecipe.name := by
        have := hinv.disj r.name (by simp [ResolverState.uNames])
        simpa [ResolverState.rNames] using this
      have hinv' : InvT T ⟨rest, res⟩ ([] ++ [r.name]) := by
        refine ⟨?_, hundup.2, hinv.rndup, ?_, hinv.resolvedMatch, ?_, ?_⟩
        · intro x hx
          exact hinv.sub x (List.mem_cons_of_mem _ hx)
        · intro x hx
          refine hinv.disj x ?_
          simp only [uNames_mk, List.map_cons]
          exact List.mem_cons_of_mem _ hx
        · intro x hx
          rcases hinv.cover x hx with h | h | h
          · simp only [uNames_mk, List.map_cons, List.mem_cons] at h
            rcases h with h | h
            · right; right; simp [h]
            · left; exact h
          · right; left; exact h
          · cases h
        · intro x hx
          simp only [List.nil_append, List.mem_singleton] at hx
          subst hx
          exact ⟨hrn_rest, hrn_res⟩
      obtain ⟨rr, st', hrr, hinv'', hname⟩ := resolve_recipe_success fres T ρ hwf hrT
        hinv' (by simp) (by intro x hx; cases hx)
      have hcnt := (resolve_recipe_preserve fres hrr hinv'.stOK
        (by simpa [ResolverState.uNames] using hrn_rest)
        (by simpa [ResolverState.rNames] using hrn_res)).2.2.2.2
      have hle : st'.unresolved.length ≤ n := by
        have h1 := resolve_recipe_unresolved_le fres hrr
        simp only [List.length_cons] at hlen h1
        omega
      obtain ⟨stF, hloop, hempty, hinvF, hlenF⟩ := ih st' hle hinv''
      refine ⟨stF, ?_, hempty, hinvF, ?_⟩
      · rw [resolveLoop_cons, hrr]
        dsimp only
        exact hloop
      · simp only [List.length_cons] at hcnt ⊢
        omega

/-- C1: for every input table with pairwise-distinct recipe names whose dependency
graph is acyclic (witnessed by a rank function `ρ` strictly decreasing along dependency
edges, the standard characterisation of acyclicity on a finite graph), where every
recipe named as a dependency is a zero-parameter recipe of the table, and where every
variable and function referenced in parameter defaults and body interpolations is
defined, `resolve_recipes` succeeds; the resolved table has exactly as many recipes as
the input table, and each input recipe has a resolved form with the same name whose
dependency list has the same count and order as the declared dependency list. -/
theorem resolve_recipes_acyclic_success (fres : Token → Nat → Except CompilationError Unit)
    (T : List UnresolvedRecipe) (assignments : List String) (ρ : String → Nat)
    (hnd : (T.map UnresolvedRecipe.name).Nodup)
    (hcl : ∀ r ∈ T, ∀ d ∈ r.dependencies,
      ∃ r' ∈ T, r'.name = d.lexeme ∧ r'.parameters = [])
    (hrk : ∀ r ∈ T, ∀ d ∈ r.dependencies, ρ d.lexeme < ρ r.name)
    (hdef : ∀ r ∈ T, ∀ p ∈ r.parameters, ∀ e ∈ p.default,
      (∀ fc ∈ e.functions, fres fc.1 fc.2 = .ok ()) ∧
      ∀ v ∈ e.vars, v.lexeme ∈ assignments)
    (hbody : ∀ r ∈ T, ∀ line ∈ r.body, ∀ e, Fragment.interpolation e ∈ line.fragments →
      (∀ fc ∈ e.functions, fres fc.1 fc.2 = .ok ()) ∧
      ∀ v ∈ e.vars, v.lexeme ∈ assignments ∨
        ∃ p ∈ r.parameters, p.name.lexeme = v.lexeme) :
    ∃ out, resolve_recipes fres T assignments = .ok out ∧ out.length = T.length ∧
      ∀ r ∈ T, ∃ rr ∈ out, rr.name = r.name ∧
        rr.dependencies.length = r.dependencies.length ∧
        rr.dependencies.map ResolvedRecipe.name = r.dependencies.map Token.lexeme := by
  have hwf : WfT T ρ := ⟨hnd, hcl, hrk⟩
  have hinv₀ : InvT T ⟨T, []⟩ [] := by
    refine ⟨fun u hu => hu, hnd, List.nodup_nil, ?_, ?_, ?_, ?_⟩
    · intro x _ hx'
      simp [ResolverState.rNames] at hx'
    · intro rr hrr
      cases hrr
    · intro x hx
      exact Or.inl hx
    · intro x hx
      cases hx
  obtain ⟨stF, hloop, hempty, hinvF, hlenF⟩ := resolveLoop_success fres T ρ hwf
    T.length ⟨T, []⟩ (by simp) hinv₀
  have hvalid : validateRecipes fres assignments stF.resolved = .ok () := by
    apply validateRecipes_ok
    intro rr hrr
    obtain ⟨ur, hurT, hn1, hn2, hn3, hn4⟩ := hinvF.resolvedMatch rr hrr
    constructor
    · rw [hn2]
      exact hdef ur hurT
    · rw [hn2, hn3]
      intro line hline e he
      obtain ⟨hf, hv⟩ := hbody ur hurT line hline e he
      exact ⟨hf, hv⟩
  refine ⟨stF.resolved, ?_, ?_, ?_⟩
  · unfold resolve_recipes
    rw [hloop]
    dsimp only
    rw [hvalid]
  · simpa using hlenF
  · intro r hr
    have hTn : r.name ∈ T.map UnresolvedRecipe.name := List.mem_map_of_mem _ hr
    have hmem : r.name ∈ stF.rNames := by
      rcases hinvF.cover r.name hTn with h | h | h
      · rw [show stF.uNames = [] by simp [ResolverState.uNames, hempty]] at h
        cases h
      · exact h
      · cases h
    obtain ⟨rr, hrrmem, hrrname⟩ := List.mem_map.mp hmem
    obtain ⟨ur, hurT, hn1, hn2, hn3, hn4⟩ := hinvF.resolvedMatch rr hrrmem
    have hur : ur = r := eq_of_name_eq hnd hurT hr (by rw [← hn1, hrrname])
    refine ⟨rr, hrrmem, hrrname, ?_, ?_⟩
    · have := congrArg List.length hn4
      simpa [hur] using this
    · rw [hn4, hur]

theorem resolve_recipes_acyclic_success_witness :
    ∃ out, resolve_recipes (fun _ _ => .ok ())
        [⟨"a", [], [tok "b"], []⟩, ⟨"b", [], [], []⟩] [] = .ok out ∧
      out.length = ([⟨"a", [], [tok "b"], []⟩,
        (⟨"b", [], [], []⟩ : UnresolvedRecipe)]).length ∧
      ∀ r ∈ [⟨"a", [], [tok "b"], []⟩, (⟨"b", [], [], []⟩ : UnresolvedRecipe)],
        ∃ rr ∈ out, rr.name = r.name ∧
          rr.dependencies.length = r.dependencies.length ∧
          rr.dependencies.map ResolvedRecipe.name = r.dependencies.map Token.lexeme :=
  resolve_recipes_acyclic_success (fun _ _ => .ok ())
    [⟨"a", [], [tok "b"], []⟩, ⟨"b", [], [], []⟩] []
    (fun s => if s = "b" then 0 else 1)
    (by decide) (by decide) (by decide)
    (by
      intro r hr p hp
      rcases List.mem_cons.mp hr with rfl | hr
      · cases hp
      · rcases List.mem_cons.mp hr with rfl | hr
        · cases hp
        · cases hr)
    (by
      intro r hr line hline
      rcases List.mem_cons.mp hr with rfl | hr
      · cases hline
      · rcases List.mem_cons.mp hr with rfl | hr
        · cases hline
        · cases hr)

end RecipeResolver
